import Mathlib

/-!
Shallow embedding of the `scanlt` 3D-tracking library (files
`src/scanlt/tracker3d.py`, `src/scanlt/depth_to_3d.py`, `src/scanlt/_accel.py`)
over exact rational arithmetic, together with proofs settling the frozen
claims about the tracker, the geometry kernels and the acceleration layer.

Python floats are modelled by `ℚ`; numpy arrays by lists or by index
functions with explicit dimensions; Python `dict` (insertion ordered) by
association lists; fallible code by `Except`.
-/

/-- A 2D axis-aligned bounding box `(x1, y1, x2, y2)` in pixel coordinates. -/
structure Box where
  x1 : ℚ
  y1 : ℚ
  x2 : ℚ
  y2 : ℚ
deriving DecidableEq, Repr

instance : Inhabited Box := ⟨⟨0, 0, 0, 0⟩⟩

/-- `(x2 - x1) * (y2 - y1)`, the (signed) area a box, as computed inline by
`Tracker3D._compute_iou` (`tracker3d.py` lines 331-332). -/
def Box.area (b : Box) : ℚ := (b.x2 - b.x1) * (b.y2 - b.y1)

/-- Embedding of `Tracker3D._compute_iou` (`tracker3d.py` lines 310-338):
intersection-over-union of two axis-aligned boxes, returning `0` when the
intersection rectangle is inverted or the union area is non-positive. -/
def computeIou (b1 b2 : Box) : ℚ :=
  let x1i := max b1.x1 b2.x1
  let y1i := max b1.y1 b2.y1
  let x2i := min b1.x2 b2.x2
  let y2i := min b1.y2 b2.y2
  if x2i < x1i ∨ y2i < y1i then 0
  else
    let inter := (x2i - x1i) * (y2i - y1i)
    let unionArea := b1.area + b2.area - inter
    if unionArea ≤ 0 then 0
    else inter / unionArea

lemma computeIou_nonneg (b1 b2 : Box) : 0 ≤ computeIou b1 b2 := by
  simp only [computeIou]
  split
  · exact le_refl 0
  · rename_i hguard
    split
    · exact le_refl 0
    · rename_i hunion
      push_neg at hguard hunion
      obtain ⟨hx, hy⟩ := hguard
      apply div_nonneg
      · have h1 : 0 ≤ min b1.x2 b2.x2 - max b1.x1 b2.x1 := by linarith
        have h2 : 0 ≤ min b1.y2 b2.y2 - max b1.y1 b2.y1 := by linarith
        exact mul_nonneg h1 h2
      · linarith

lemma computeIou_le_one (b1 b2 : Box) : computeIou b1 b2 ≤ 1 := by
  simp only [computeIou]
  split
  · norm_num
  · rename_i hguard
    split
    · norm_num
    · rename_i hunion
      push_neg at hguard hunion
      obtain ⟨hx, hy⟩ := hguard
      rw [div_le_one hunion]
      set u := min b1.x2 b2.x2 - max b1.x1 b2.x1 with hu_def
      set v := min b1.y2 b2.y2 - max b1.y1 b2.y1 with hv_def
      have hu : 0 ≤ u := by rw [hu_def]; linarith
      have hv : 0 ≤ v := by rw [hv_def]; linarith
      rcases eq_or_lt_of_le (mul_nonneg hu hv) with hz | hp
      · -- zero intersection: `0 ≤ unionArea` suffices
        rw [← hz] at hunion ⊢
        linarith
      · -- positive intersection: both boxes have positive extent
        have hu' : 0 < u := by
          rcases lt_or_eq_of_le hu with h | h
          · exact h
          · exfalso; rw [← h, zero_mul] at hp; exact lt_irrefl 0 hp
        have hv' : 0 < v := by
          rcases lt_or_eq_of_le hv with h | h
          · exact h
          · exfalso; rw [← h, mul_zero] at hp; exact lt_irrefl 0 hp
        have hw1 : u ≤ b1.x2 - b1.x1 := by
          have := min_le_left b1.x2 b2.x2
          have := le_max_left b1.x1 b2.x1
          rw [hu_def]; linarith
        have hh1 : v ≤ b1.y2 - b1.y1 := by
          have := min_le_left b1.y2 b2.y2
          have := le_max_left b1.y1 b2.y1
          rw [hv_def]; linarith
        have hw2 : u ≤ b2.x2 - b2.x1 := by
          have := min_le_right b1.x2 b2.x2
          have := le_max_right b1.x1 b2.x1
          rw [hu_def]; linarith
        have hh2 : v ≤ b2.y2 - b2.y1 := by
          have := min_le_right b1.y2 b2.y2
          have := le_max_right b1.y1 b2.y1
          rw [hv_def]; linarith
        have ha1 : u * v ≤ b1.area := by
          unfold Box.area
          exact mul_le_mul hw1 hh1 hv (by linarith)
        have ha2 : u * v ≤ b2.area := by
          unfold Box.area
          exact mul_le_mul hw2 hh2 hv (by linarith)
        linarith

lemma computeIou_self (b : Box) (hx : b.x1 < b.x2) (hy : b.y1 < b.y2) :
    computeIou b b = 1 := by
  simp only [computeIou]
  rw [if_neg (by push_neg; constructor <;> simp [min_self, max_self] <;> linarith)]
  have harea : 0 < b.area := mul_pos (by linarith) (by linarith)
  have hinter : (min b.x2 b.x2 - max b.x1 b.x1) * (min b.y2 b.y2 - max b.y1 b.y1) = b.area := by
    simp [min_self, max_self, Box.area]
  rw [if_neg (by rw [hinter]; push_neg; linarith)]
  rw [hinter]
  have : b.area + b.area - b.area = b.area := by ring
  rw [this, div_self (ne_of_gt harea)]

lemma computeIou_disjoint (b1 b2 : Box)
    (h : min b1.x2 b2.x2 ≤ max b1.x1 b2.x1 ∨ min b1.y2 b2.y2 ≤ max b1.y1 b2.y1) :
    computeIou b1 b2 = 0 := by
  simp only [computeIou]
  split
  · rfl
  · rename_i hguard
    push_neg at hguard
    obtain ⟨hx, hy⟩ := hguard
    split
    · rfl
    · rcases h with h | h
      · have hz : min b1.x2 b2.x2 - max b1.x1 b2.x1 = 0 := by linarith
        rw [hz, zero_mul, zero_div]
      · have hz : min b1.y2 b2.y2 - max b1.y1 b2.y1 = 0 := by linarith
        rw [hz, mul_zero, zero_div]

lemma computeIou_degenerate (b1 b2 : Box) (h : b1.area ≤ 0 ∨ b2.area ≤ 0) :
    computeIou b1 b2 = 0 := by
  simp only [computeIou]
  split
  · rfl
  · rename_i hguard
    push_neg at hguard
    obtain ⟨hx, hy⟩ := hguard
    split
    · rfl
    · set u := min b1.x2 b2.x2 - max b1.x1 b2.x1 with hu_def
      set v := min b1.y2 b2.y2 - max b1.y1 b2.y1 with hv_def
      have hu : 0 ≤ u := by rw [hu_def]; linarith
      have hv : 0 ≤ v := by rw [hv_def]; linarith
      have hz : u * v = 0 := by
        by_contra hne
        have hp : 0 < u * v := lt_of_le_of_ne (mul_nonneg hu hv) (Ne.symm hne)
        have hu' : 0 < u := by
          rcases lt_or_eq_of_le hu with h' | h'
          · exact h'
          · exfalso; rw [← h', zero_mul] at hp; exact lt_irrefl 0 hp
        have hv' : 0 < v := by
          rcases lt_or_eq_of_le hv with h' | h'
          · exact h'
          · exfalso; rw [← h', mul_zero] at hp; exact lt_irrefl 0 hp
        have hw1 : u ≤ b1.x2 - b1.x1 := by
          have := min_le_left b1.x2 b2.x2
          have := le_max_left b1.x1 b2.x1
          rw [hu_def]; linarith
        have hh1 : v ≤ b1.y2 - b1.y1 := by
          have := min_le_left b1.y2 b2.y2
          have := le_max_left b1.y1 b2.y1
          rw [hv_def]; linarith
        have hw2 : u ≤ b2.x2 - b2.x1 := by
          have := min_le_right b1.x2 b2.x2
          have := le_max_right b1.x1 b2.x1
          rw [hu_def]; linarith
        have hh2 : v ≤ b2.y2 - b2.y1 := by
          have := min_le_right b1.y2 b2.y2
          have := le_max_right b1.y1 b2.y1
          rw [hv_def]; linarith
        have ha1 : 0 < b1.area :=
          lt_of_lt_of_le hp (by unfold Box.area; exact mul_le_mul hw1 hh1 hv (by linarith))
        have ha2 : 0 < b2.area :=
          lt_of_lt_of_le hp (by unfold Box.area; exact mul_le_mul hw2 hh2 hv (by linarith))
        rcases h with h | h <;> linarith
      rw [hz, zero_div]

/-- C5: for all pairs of axis-aligned boxes, `_compute_iou` returns a value in
`[0,1]`; it returns exactly `1` on a pair of identical positive-area boxes,
`0` on disjoint boxes, and `0` whenever either box has non-positive area. -/
theorem c5_iou (b1 b2 : Box) :
    (0 ≤ computeIou b1 b2 ∧ computeIou b1 b2 ≤ 1) ∧
    (b1.x1 < b1.x2 → b1.y1 < b1.y2 → computeIou b1 b1 = 1) ∧
    (min b1.x2 b2.x2 ≤ max b1.x1 b2.x1 ∨ min b1.y2 b2.y2 ≤ max b1.y1 b2.y1 →
      computeIou b1 b2 = 0) ∧
    ((b1.area ≤ 0 ∨ b2.area ≤ 0) → computeIou b1 b2 = 0) :=
  ⟨⟨computeIou_nonneg b1 b2, computeIou_le_one b1 b2⟩,
   fun hx hy => computeIou_self b1 hx hy,
   computeIou_disjoint b1 b2,
   computeIou_degenerate b1 b2⟩

/-- Witness for C5 at concrete boxes: the unit checks of the spec,
`iou(b,b) = 1` for a non-degenerate box and `iou = 0` for disjoint and for
degenerate boxes. -/
theorem c5_iou_witness :
    (0 ≤ computeIou ⟨0, 0, 2, 2⟩ ⟨3, 3, 4, 4⟩ ∧ computeIou ⟨0, 0, 2, 2⟩ ⟨3, 3, 4, 4⟩ ≤ 1) ∧
    computeIou ⟨0, 0, 2, 2⟩ ⟨0, 0, 2, 2⟩ = 1 ∧
    computeIou ⟨0, 0, 2, 2⟩ ⟨3, 3, 4, 4⟩ = 0 ∧
    computeIou ⟨0, 0, 0, 5⟩ ⟨0, 0, 2, 2⟩ = 0 :=
  ⟨(c5_iou ⟨0, 0, 2, 2⟩ ⟨3, 3, 4, 4⟩).1,
   (c5_iou ⟨0, 0, 2, 2⟩ ⟨3, 3, 4, 4⟩).2.1 (by norm_num) (by norm_num),
   (c5_iou ⟨0, 0, 2, 2⟩ ⟨3, 3, 4, 4⟩).2.2.1 (by left; norm_num [min_def, max_def]),
   (c5_iou ⟨0, 0, 0, 5⟩ ⟨0, 0, 2, 2⟩).2.2.2 (by left; norm_num [Box.area])⟩

/-- A dense depth map: dimensions `h × w` with a sample at every pixel,
modelling the numpy array handed to `get_bbox_depth` (`depth_to_3d.py`). -/
structure DepthMap where
  h : ℕ
  w : ℕ
  data : ℕ → ℕ → ℚ

/-- Embedding of the coordinate clipping `int(max(0, min(bound - 1, v)))` in
`get_bbox_depth` (`depth_to_3d.py` lines 87-90); the argument of `int` is
non-negative, so Python truncation towards zero is the floor. -/
def clipIdx (bound : ℕ) (v : ℚ) : ℕ := (⌊max 0 (min ((bound : ℚ) - 1) v)⌋).toNat

/-- Stable insertion of a value into an ascending list (helper for sorting). -/
def insertAscVal (x : ℚ) : List ℚ → List ℚ
  | [] => [x]
  | y :: ys => if x < y then x :: y :: ys else y :: insertAscVal x ys

/-- Ascending sort of a list of rationals by repeated insertion. -/
def sortAsc (l : List ℚ) : List ℚ := l.foldl (fun acc x => insertAscVal x acc) []

/-- The numpy median: middle element of the sorted samples, or the mean of the
two middle elements for an even count. -/
def npMedian (l : List ℚ) : ℚ :=
  let s := sortAsc l
  let n := s.length
  if n % 2 = 1 then s.getD (n / 2) 0
  else (s.getD (n / 2 - 1) 0 + s.getD (n / 2) 0) / 2

/-- The numpy minimum of a non-empty list (`0` on the unreachable empty case). -/
def npMin : List ℚ → ℚ
  | [] => 0
  | x :: xs => xs.foldl min x

/-- The samples of the rectangular slice `depth_map[y1:y2, x1:x2]` in
row-major order. -/
def regionSamples (dm : DepthMap) (x1 y1 x2 y2 : ℕ) : List ℚ :=
  (List.range (y2 - y1)).flatMap
    (fun dy => (List.range (x2 - x1)).map (fun dx => dm.data (y1 + dy) (x1 + dx)))

/-- Embedding of `get_bbox_depth` (`depth_to_3d.py` lines 65-122): clip the
box to the image bounds, return the sentinel `1.0` for a clipped box of zero
area, then dispatch on the method name, raising on an unknown name. -/
def get_bbox_depth (bbox : Box) (dm : DepthMap) (method : String) : Except String ℚ :=
  let x1 := clipIdx dm.w bbox.x1
  let y1 := clipIdx dm.h bbox.y1
  let x2 := clipIdx dm.w bbox.x2
  let y2 := clipIdx dm.h bbox.y2
  if x2 ≤ x1 ∨ y2 ≤ y1 then Except.ok 1
  else if method = "center" then
    Except.ok (dm.data ((y1 + y2) / 2) ((x1 + x2) / 2))
  else if method = "median" then
    let region := regionSamples dm x1 y1 x2 y2
    if region.length = 0 then Except.ok 1
    else
      let valid := region.filter (fun v => decide (0 < v))
      if valid.length = 0 then Except.ok (npMedian region) else Except.ok (npMedian valid)
  else if method = "min" then
    let region := regionSamples dm x1 y1 x2 y2
    if region.length = 0 then Except.ok 1
    else
      let valid := region.filter (fun v => decide (0 < v))
      if valid.length = 0 then Except.ok (npMin region) else Except.ok (npMin valid)
  else Except.error ("Unknown depth extraction method: " ++ method)

/-- The always-succeeding "center" path of `get_bbox_depth`, used internally
by `_TrackState` (`tracker3d.py` lines 366 and 395 call it with
`method="center"`). -/
def get_bbox_depth_center (bbox : Box) (dm : DepthMap) : ℚ :=
  let x1 := clipIdx dm.w bbox.x1
  let y1 := clipIdx dm.h bbox.y1
  let x2 := clipIdx dm.w bbox.x2
  let y2 := clipIdx dm.h bbox.y2
  if x2 ≤ x1 ∨ y2 ≤ y1 then 1
  else dm.data ((y1 + y2) / 2) ((x1 + x2) / 2)

lemma get_bbox_depth_center_eq (bbox : Box) (dm : DepthMap) :
    get_bbox_depth bbox dm "center" = Except.ok (get_bbox_depth_center bbox dm) := by
  simp only [get_bbox_depth, get_bbox_depth_center]
  split
  · rfl
  · simp

/-- Embedding of `pixel_to_3d` (`depth_to_3d.py` lines 10-62) in the
`camera_matrix=None` configuration the tracker always uses: default webcam
intrinsics `fx = fy = 0.8 * image_width`, principal point at the image
center, inverse pinhole projection. -/
def pixel_to_3d (x y depth : ℚ) (w h : ℕ) : ℚ × ℚ × ℚ :=
  let fx : ℚ := 4 / 5 * (w : ℚ)
  let fy : ℚ := 4 / 5 * (w : ℚ)
  let cx : ℚ := (w : ℚ) / 2
  let cy : ℚ := (h : ℚ) / 2
  ((x - cx) * depth / fx, (y - cy) * depth / fy, depth)

lemma clipIdx_of_bounds {bound : ℕ} {v : ℚ} (h0 : 0 ≤ v) (h1 : v ≤ (bound : ℚ) - 1) :
    clipIdx bound v = (⌊v⌋).toNat := by
  unfold clipIdx
  rw [min_eq_right h1, max_eq_right h0]

/-- A 3×3 depth map distinguishing the samples the C7 claim and the code pick. -/
def dm7 : DepthMap :=
  ⟨3, 3, fun y x => if y = 1 ∧ x = 0 then 5 else if y = 1 ∧ x = 1 then 7 else 0⟩

/-- C7 counterexample: for the positive-area box `(0.6, 0, 1.6, 2)` with all
corners inside the 3×3 image, the code (which truncates the corners before
averaging) reads sample `(1,0) = 5`, while the claim's integer-truncated
centroid `(trunc((y1+y2)/2), trunc((x1+x2)/2)) = (1,1)` holds `7`; moreover
the fractional positive-area box `(0.1, 0.1, 0.9, 0.9)` collapses to zero
extent after truncation and yields the sentinel `1.0`, not any depth sample. -/
theorem c7_counterexample :
    ((0:ℚ) ≤ 3/5 ∧ (3/5:ℚ) ≤ 2 ∧ (0:ℚ) ≤ 8/5 ∧ (8/5:ℚ) ≤ 2 ∧ (3/5:ℚ) < 8/5 ∧ (0:ℚ) < 2) ∧
    get_bbox_depth ⟨3/5, 0, 8/5, 2⟩ dm7 "center" = Except.ok 5 ∧
    dm7.data (⌊((0:ℚ) + 2) / 2⌋.toNat) (⌊((3/5:ℚ) + 8/5) / 2⌋.toNat) = 7 ∧
    (5:ℚ) ≠ 7 ∧
    get_bbox_depth ⟨1/10, 1/10, 9/10, 9/10⟩ dm7 "center" = Except.ok 1 ∧
    dm7.data (⌊((1/10:ℚ) + 9/10) / 2⌋.toNat) (⌊((1/10:ℚ) + 9/10) / 2⌋.toNat) = 0 ∧
    (1:ℚ) ≠ 0 := by
  refine ⟨by norm_num, ?_, ?_, by norm_num, ?_, ?_, by norm_num⟩
  · norm_num [get_bbox_depth, clipIdx, min_def, max_def, dm7] <;> decide
  · norm_num [dm7] <;> decide
  · norm_num [get_bbox_depth, clipIdx, min_def, max_def, dm7] <;> decide
  · norm_num [dm7] <;> decide

/-- C7 (amended): for a box whose corners lie within the image bounds and
whose integer-truncated corners still span a positive extent, the "center"
method returns the sample at the integer-truncated corners' midpoint,
`depthMap[(trunc y1 + trunc y2) div 2, (trunc x1 + trunc x2) div 2]` — not at
the truncated true centroid. -/
theorem c7_center_depth (bbox : Box) (dm : DepthMap)
    (hx1 : 0 ≤ bbox.x1) (hx1' : bbox.x1 ≤ (dm.w : ℚ) - 1)
    (hx2 : 0 ≤ bbox.x2) (hx2' : bbox.x2 ≤ (dm.w : ℚ) - 1)
    (hy1 : 0 ≤ bbox.y1) (hy1' : bbox.y1 ≤ (dm.h : ℚ) - 1)
    (hy2 : 0 ≤ bbox.y2) (hy2' : bbox.y2 ≤ (dm.h : ℚ) - 1)
    (hfx : ⌊bbox.x1⌋ < ⌊bbox.x2⌋) (hfy : ⌊bbox.y1⌋ < ⌊bbox.y2⌋) :
    get_bbox_depth bbox dm "center" =
      Except.ok (dm.data ((⌊bbox.y1⌋.toNat + ⌊bbox.y2⌋.toNat) / 2)
                         ((⌊bbox.x1⌋.toNat + ⌊bbox.x2⌋.toNat) / 2)) := by
  have ex1 := clipIdx_of_bounds hx1 hx1'
  have ex2 := clipIdx_of_bounds hx2 hx2'
  have ey1 := clipIdx_of_bounds hy1 hy1'
  have ey2 := clipIdx_of_bounds hy2 hy2'
  have hxlt : ⌊bbox.x1⌋.toNat < ⌊bbox.x2⌋.toNat := by
    have h2pos : 0 < ⌊bbox.x2⌋ := lt_of_le_of_lt (Int.floor_nonneg.mpr hx1) hfx
    exact (Int.toNat_lt_toNat h2pos).mpr hfx
  have hylt : ⌊bbox.y1⌋.toNat < ⌊bbox.y2⌋.toNat := by
    have h2pos : 0 < ⌊bbox.y2⌋ := lt_of_le_of_lt (Int.floor_nonneg.mpr hy1) hfy
    exact (Int.toNat_lt_toNat h2pos).mpr hfy
  simp only [get_bbox_depth, ex1, ex2, ey1, ey2]
  rw [if_neg (by push_neg; exact ⟨hxlt, hylt⟩)]
  simp

/-- Witness for C7 (amended) at the concrete box `(0.6, 0, 1.6, 2)` over the
3×3 map `dm7`. -/
theorem c7_center_depth_witness :
    get_bbox_depth ⟨3/5, 0, 8/5, 2⟩ dm7 "center" =
      Except.ok (dm7.data ((⌊(0:ℚ)⌋.toNat + ⌊(2:ℚ)⌋.toNat) / 2)
                          ((⌊(3/5:ℚ)⌋.toNat + ⌊(8/5:ℚ)⌋.toNat) / 2)) :=
  c7_center_depth ⟨3/5, 0, 8/5, 2⟩ dm7 (by norm_num) (by norm_num [dm7])
    (by norm_num) (by norm_num [dm7]) (by norm_num) (by norm_num [dm7])
    (by norm_num) (by norm_num [dm7]) (by norm_num) (by norm_num)

/-- C8 counterexample: a call with the unknown method name `"bogus"` on a
zero-area box does not raise — the sentinel short-circuits first. -/
theorem c8_counterexample :
    "bogus" ≠ "center" ∧ "bogus" ≠ "median" ∧ "bogus" ≠ "min" ∧
    get_bbox_depth ⟨0, 0, 0, 0⟩ dm7 "bogus" = Except.ok 1 := by
  refine ⟨by decide, by decide, by decide, ?_⟩
  norm_num [get_bbox_depth, clipIdx, min_def, max_def, dm7] <;> decide

/-- C8 (amended): `get_bbox_depth` returns the sentinel default depth `1.0`
whenever the box clipped to the image bounds has zero area (for every method
name, known or not), and raises an error for an unknown method name whenever
the clipped box has positive area. -/
theorem c8_unknown_method (bbox : Box) (dm : DepthMap) (method : String) :
    (clipIdx dm.w bbox.x2 ≤ clipIdx dm.w bbox.x1 ∨
       clipIdx dm.h bbox.y2 ≤ clipIdx dm.h bbox.y1 →
      get_bbox_depth bbox dm method = Except.ok 1) ∧
    (clipIdx dm.w bbox.x1 < clipIdx dm.w bbox.x2 →
      clipIdx dm.h bbox.y1 < clipIdx dm.h bbox.y2 →
      method ≠ "center" → method ≠ "median" → method ≠ "min" →
      get_bbox_depth bbox dm method =
        Except.error ("Unknown depth extraction method: " ++ method)) := by
  constructor
  · intro h
    simp only [get_bbox_depth]
    rw [if_pos h]
  · intro hx hy hc hm hn
    simp only [get_bbox_depth]
    rw [if_neg (by push_neg; exact ⟨hx, hy⟩), if_neg hc, if_neg hm, if_neg hn]

/-- Witness for C8 (amended): both branches at concrete inputs — a zero-area
box with method `"median"` yields the sentinel, and a positive-area box with
unknown method `"bogus"` raises. -/
theorem c8_unknown_method_witness :
    get_bbox_depth ⟨0, 0, 0, 0⟩ dm7 "median" = Except.ok 1 ∧
    get_bbox_depth ⟨0, 0, 2, 2⟩ dm7 "bogus" =
      Except.error ("Unknown depth extraction method: " ++ "bogus") :=
  ⟨(c8_unknown_method ⟨0, 0, 0, 0⟩ dm7 "median").1
     (by left; norm_num [clipIdx, min_def, max_def, dm7] <;> decide),
   (c8_unknown_method ⟨0, 0, 2, 2⟩ dm7 "bogus").2
     (by norm_num [clipIdx, min_def, max_def, dm7] <;> decide)
     (by norm_num [clipIdx, min_def, max_def, dm7] <;> decide)
     (by decide) (by decide) (by decide)⟩

/-- The `max(0, xx2 - xx1) * max(0, yy2 - yy1)` intersection rectangle area
used by the NMS fallback (`_accel.py` line 136). -/
def interRect (a b : Box) : ℚ :=
  max 0 (min a.x2 b.x2 - max a.x1 b.x1) * max 0 (min a.y2 b.y2 - max a.y1 b.y1)

/-- Union area of two boxes, `area a + area b - interRect a b`. -/
def unionArea (a b : Box) : ℚ := a.area + b.area - interRect a b

/-- The epsilon-stabilised IOU of the NMS fallback (`_accel.py` lines
131-137): `inter / (areas[i] + areas[rest] - inter + 1e-9)`. -/
def nmsIou (a b : Box) : ℚ :=
  let xx1 := max a.x1 b.x1
  let yy1 := max a.y1 b.y1
  let xx2 := min a.x2 b.x2
  let yy2 := min a.y2 b.y2
  let inter := max 0 (xx2 - xx1) * max 0 (yy2 - yy1)
  inter / (a.area + b.area - inter + 1 / 1000000000)

lemma nmsIou_eq (a b : Box) :
    nmsIou a b = interRect a b / (unionArea a b + 1 / 1000000000) := rfl

lemma nmsIou_comm (a b : Box) : nmsIou a b = nmsIou b a := by
  simp only [nmsIou, min_comm a.x2 b.x2, min_comm a.y2 b.y2,
    max_comm a.x1 b.x1, max_comm a.y1 b.y1]
  ring_nf

/-- Stable insertion of index `i` into an index list ascending by score
(a later index goes after equal-scored earlier ones). -/
def insertIdxByScore (scores : List ℚ) (i : ℕ) : List ℕ → List ℕ
  | [] => [i]
  | j :: js =>
    if scores.getD i 0 < scores.getD j 0 then i :: j :: js
    else j :: insertIdxByScore scores i js

/-- `scores.argsort()`: the indices `0, …, n-1` sorted by ascending score
(`_accel.py` line 120 before the reversal). -/
def argsortAsc (scores : List ℚ) : List ℕ :=
  (List.range scores.length).foldl (fun acc i => insertIdxByScore scores i acc) []

/-- The suppression loop of `nms_boxes` (`_accel.py` lines 123-139): keep the
best remaining index, drop every other remaining index whose IOU with it
exceeds the threshold, recurse.  The fuel argument (started at the candidate
count) only bounds the iteration count; each iteration consumes at least one
candidate, so it never runs out. -/
def nmsLoop (boxes : List Box) (thr : ℚ) : ℕ → List ℕ → List ℕ
  | _, [] => []
  | 0, _ => []
  | fuel + 1, i :: rest =>
    i :: nmsLoop boxes thr fuel
      (rest.filter fun j =>
        decide (nmsIou (boxes.getD i default) (boxes.getD j default) ≤ thr))

/-- Embedding of the NMS fallback `nms_boxes` (`_accel.py` lines 95-141):
indices sorted by descending score, then greedy suppression. -/
def nms_boxes (boxes : List Box) (scores : List ℚ) (thr : ℚ) : List ℕ :=
  if boxes.length = 0 then []
  else
    let order := (argsortAsc scores).reverse
    nmsLoop boxes thr order.length order

lemma nms_boxes_single (b : Box) (s thr : ℚ) : nms_boxes [b] [s] thr = [0] := by
  simp [nms_boxes, argsortAsc, insertIdxByScore, nmsLoop]

lemma nmsIou_gt_half (b0 b1 : Box) (hiou : computeIou b0 b1 = 9/10)
    (hU : 1/800000000 < unionArea b0 b1) : ¬ nmsIou b0 b1 ≤ 1/2 := by
  have h0 : computeIou b0 b1 ≠ 0 := by rw [hiou]; norm_num
  revert hiou h0
  simp only [computeIou]
  split
  · intro hiou h0; exact absurd rfl h0
  · rename_i hguard
    push_neg at hguard
    obtain ⟨hx, hy⟩ := hguard
    split
    · intro hiou h0; exact absurd rfl h0
    · rename_i hunion
      push_neg at hunion
      intro hiou _
      have hinterEq : interRect b0 b1 =
          (min b0.x2 b1.x2 - max b0.x1 b1.x1) * (min b0.y2 b1.y2 - max b0.y1 b1.y1) := by
        unfold interRect
        rw [max_eq_right (show (0:ℚ) ≤ min b0.x2 b1.x2 - max b0.x1 b1.x1 by linarith),
          max_eq_right (show (0:ℚ) ≤ min b0.y2 b1.y2 - max b0.y1 b1.y1 by linarith)]
      have hUA : unionArea b0 b1 =
          b0.area + b1.area -
            (min b0.x2 b1.x2 - max b0.x1 b1.x1) * (min b0.y2 b1.y2 - max b0.y1 b1.y1) := by
        unfold unionArea
        rw [hinterEq]
      have hval : (min b0.x2 b1.x2 - max b0.x1 b1.x1) * (min b0.y2 b1.y2 - max b0.y1 b1.y1) =
          9/10 * (b0.area + b1.area -
            (min b0.x2 b1.x2 - max b0.x1 b1.x1) * (min b0.y2 b1.y2 - max b0.y1 b1.y1)) := by
        rw [div_eq_iff (by linarith)] at hiou
        linarith [hiou]
      rw [nmsIou_eq, hinterEq, not_le, lt_div_iff (by rw [hUA]; linarith)]
      rw [hUA] at hU ⊢
      linarith

lemma nms_boxes_pair_snd (b0 b1 : Box) (s0 s1 thr : ℚ) (hs : s0 < s1)
    (h : ¬ nmsIou b1 b0 ≤ thr) : nms_boxes [b0, b1] [s0, s1] thr = [1] := by
  have hins : insertIdxByScore [s0, s1] 1 [0] = [0, 1] := by
    simp [insertIdxByScore, not_lt.mpr (le_of_lt hs)]
  have harg : argsortAsc [s0, s1] = [0, 1] := by
    simp [argsortAsc, List.range_succ, insertIdxByScore, hins, hs.le, hs.asymm]
  simp [nms_boxes, harg, nmsLoop, h]

lemma nms_boxes_pair_fst (b0 b1 : Box) (s0 s1 thr : ℚ) (hs : s1 < s0)
    (h : ¬ nmsIou b0 b1 ≤ thr) : nms_boxes [b0, b1] [s0, s1] thr = [0] := by
  have hins : insertIdxByScore [s0, s1] 1 [0] = [1, 0] := by
    simp [insertIdxByScore, hs]
  have harg : argsortAsc [s0, s1] = [1, 0] := by
    simp [argsortAsc, List.range_succ, insertIdxByScore, hins, hs]
  simp [nms_boxes, harg, nmsLoop, h]

/-- C6 counterexample: two boxes whose exact IOU is `0.9` (scores `2 > 1`,
threshold `0.5`) for which NMS keeps BOTH boxes: their union area
`10⁻⁹` is so small that the epsilon-stabilised IOU
`inter/(union + 10⁻⁹) = 0.45` no longer clears the threshold, so the claim
that only the higher-scoring box survives fails. -/
theorem c6_counterexample :
    computeIou ⟨0, 0, 9/10000000000, 1⟩ ⟨0, 0, 1/1000000000, 1⟩ = 9/10 ∧
    (1:ℚ) < 2 ∧
    nms_boxes [⟨0, 0, 9/10000000000, 1⟩, ⟨0, 0, 1/1000000000, 1⟩] [2, 1] (1/2) = [0, 1] ∧
    ([0, 1] : List ℕ) ≠ [0] := by
  refine ⟨?_, by norm_num, ?_, by decide⟩
  · norm_num [computeIou, min_def, max_def, Box.area]
  · norm_num [nms_boxes, argsortAsc, insertIdxByScore, nmsLoop, nmsIou, Box.area,
      min_def, max_def, List.range_succ]

/-- C6 (amended): `nms_boxes` with a single box returns that box's index for
every threshold; and with two boxes of exact IOU `0.9` and threshold `0.5` it
returns exactly the higher-scoring box's index, provided the boxes' union
area exceeds `1/800000000 = 1.25·10⁻⁹` (below that, the `1e-9`
epsilon added to the union in the suppression test drops the effective IOU
to `≤ 0.5` and the lower-scoring box is kept as well). -/
theorem c6_nms :
    (∀ (b : Box) (s thr : ℚ), nms_boxes [b] [s] thr = [0]) ∧
    (∀ (b0 b1 : Box) (s0 s1 : ℚ),
      computeIou b0 b1 = 9/10 → 1/800000000 < unionArea b0 b1 →
      (s0 < s1 → nms_boxes [b0, b1] [s0, s1] (1/2) = [1]) ∧
      (s1 < s0 → nms_boxes [b0, b1] [s0, s1] (1/2) = [0])) := by
  refine ⟨nms_boxes_single, fun b0 b1 s0 s1 hiou hU => ⟨fun hs => ?_, fun hs => ?_⟩⟩
  · exact nms_boxes_pair_snd b0 b1 s0 s1 (1/2) hs
      (by rw [nmsIou_comm]; exact nmsIou_gt_half b0 b1 hiou hU)
  · exact nms_boxes_pair_fst b0 b1 s0 s1 (1/2) hs (nmsIou_gt_half b0 b1 hiou hU)

/-- Witness for C6 (amended): a single box at threshold `0.7`, and a pair of
unit-height boxes with IOU `0.9` and ample union area, in both score orders. -/
theorem c6_nms_witness :
    nms_boxes [⟨0, 0, 2, 2⟩] [1] (7/10) = [0] ∧
    nms_boxes [⟨0, 0, 1, 1⟩, ⟨0, 0, 9/10, 1⟩] [1, 2] (1/2) = [1] ∧
    nms_boxes [⟨0, 0, 1, 1⟩, ⟨0, 0, 9/10, 1⟩] [2, 1] (1/2) = [0] :=
  ⟨c6_nms.1 ⟨0, 0, 2, 2⟩ 1 (7/10),
   (c6_nms.2 ⟨0, 0, 1, 1⟩ ⟨0, 0, 9/10, 1⟩ 1 2
     (by norm_num [computeIou, min_def, max_def, Box.area])
     (by norm_num [unionArea, interRect, min_def, max_def, Box.area])).1 (by norm_num),
   (c6_nms.2 ⟨0, 0, 1, 1⟩ ⟨0, 0, 9/10, 1⟩ 2 1
     (by norm_num [computeIou, min_def, max_def, Box.area])
     (by norm_num [unionArea, interRect, min_def, max_def, Box.area])).2 (by norm_num)⟩

/-- `xs.foldl min s ≤ s`. -/
lemma foldl_min_le_init (xs : List ℚ) : ∀ s : ℚ, xs.foldl min s ≤ s := by
  induction xs with
  | nil => intro s; exact le_refl s
  | cons y ys ih => intro s; exact le_trans (ih (min s y)) (min_le_left s y)

/-- The running minimum is below every list element. -/
lemma foldl_min_le_mem (xs : List ℚ) : ∀ s v : ℚ, v ∈ xs → xs.foldl min s ≤ v := by
  induction xs with
  | nil => intro s v hv; exact absurd hv (List.not_mem_nil v)
  | cons y ys ih =>
    intro s v hv
    rcases List.mem_cons.mp hv with h | h
    · subst h; exact le_trans (foldl_min_le_init ys (min s v)) (min_le_right s v)
    · exact ih (min s y) v h

/-- `s ≤ xs.foldl max s`. -/
lemma le_foldl_max_init (xs : List ℚ) : ∀ s : ℚ, s ≤ xs.foldl max s := by
  induction xs with
  | nil => intro s; exact le_refl s
  | cons y ys ih => intro s; exact le_trans (le_max_left s y) (ih (max s y))

/-- The running maximum is above every list element. -/
lemma le_foldl_max_mem (xs : List ℚ) : ∀ s v : ℚ, v ∈ xs → v ≤ xs.foldl max s := by
  induction xs with
  | nil => intro s v hv; exact absurd hv (List.not_mem_nil v)
  | cons y ys ih =>
    intro s v hv
    rcases List.mem_cons.mp hv with h | h
    · subst h; exact le_trans (le_max_right s v) (le_foldl_max_init ys (max s v))
    · exact ih (max s y) v h

lemma foldl_max_const (xs : List ℚ) : ∀ x : ℚ, (∀ v ∈ xs, v = x) → xs.foldl max x = x := by
  induction xs with
  | nil => intro x _; rfl
  | cons y ys ih =>
    intro x hall
    have hy : y = x := hall y (List.mem_cons_self y ys)
    subst hy
    rw [List.foldl_cons, max_self]
    exact ih y fun v hv => hall v (List.mem_cons_of_mem y hv)

lemma foldl_min_const (xs : List ℚ) : ∀ x : ℚ, (∀ v ∈ xs, v = x) → xs.foldl min x = x := by
  induction xs with
  | nil => intro x _; rfl
  | cons y ys ih =>
    intro x hall
    have hy : y = x := hall y (List.mem_cons_self y ys)
    subst hy
    rw [List.foldl_cons, min_self]
    exact ih y fun v hv => hall v (List.mem_cons_of_mem y hv)

/-- Embedding of the `normalize_depth_map` fallback (`_accel.py` lines
161-172) on the flattened samples of the depth map: linear rescale to
`[0,255]` by the map's own minimum and maximum, all zeros when
`max - min < 1e-9`; `none` models numpy's error on an empty array.  The
`astype(np.uint8)` truncation of the non-negative scaled values is the
floor. -/
def normalize_depth_map : List ℚ → Option (List ℕ)
  | [] => none
  | x :: xs =>
    let dmin := xs.foldl min x
    let dmax := xs.foldl max x
    if dmax - dmin < 1/1000000000 then some ((x :: xs).map fun _ => 0)
    else some ((x :: xs).map fun v => (⌊(v - dmin) / (dmax - dmin) * 255⌋).toNat)

/-- C9: depth normalization rescales by the map's own min and max into
`[0, 255]`; a perfectly flat map — and more generally any map with
`max - min < 1e-9` — yields an all-zero output, and in the dividing branch
the divisor `max - min` is at least `1e-9`, with every output sample at most
`255`. -/
theorem c9_normalize (x : ℚ) (xs : List ℚ) :
    ((∀ v ∈ x :: xs, v = x) →
      normalize_depth_map (x :: xs) = some ((x :: xs).map fun _ => 0)) ∧
    (xs.foldl max x - xs.foldl min x < 1/1000000000 →
      normalize_depth_map (x :: xs) = some ((x :: xs).map fun _ => 0)) ∧
    (1/1000000000 ≤ xs.foldl max x - xs.foldl min x →
      normalize_depth_map (x :: xs) =
        some ((x :: xs).map fun v =>
          (⌊(v - xs.foldl min x) / (xs.foldl max x - xs.foldl min x) * 255⌋).toNat) ∧
      ∀ u ∈ ((x :: xs).map fun v =>
          (⌊(v - xs.foldl min x) / (xs.foldl max x - xs.foldl min x) * 255⌋).toNat),
        u ≤ 255) := by
  refine ⟨?_, ?_, ?_⟩
  · intro hall
    have hM : xs.foldl max x = x := foldl_max_const xs x
      (fun v hv => hall v (List.mem_cons_of_mem x hv))
    have hm : xs.foldl min x = x := foldl_min_const xs x
      (fun v hv => hall v (List.mem_cons_of_mem x hv))
    simp only [normalize_depth_map]
    rw [if_pos (by rw [hM, hm]; norm_num)]
  · intro h
    simp only [normalize_depth_map]
    rw [if_pos h]
  · intro h
    constructor
    · simp only [normalize_depth_map]
      rw [if_neg (not_lt.mpr h)]
    · intro u hu
      obtain ⟨v, hv, rfl⟩ := List.mem_map.mp hu
      have hd : (0:ℚ) < xs.foldl max x - xs.foldl min x :=
        lt_of_lt_of_le (by norm_num) h
      have hmv : xs.foldl min x ≤ v := by
        rcases List.mem_cons.mp hv with h' | h'
        · subst h'; exact foldl_min_le_init xs v
        · exact foldl_min_le_mem xs x v h'
      have hvM : v ≤ xs.foldl max x := by
        rcases List.mem_cons.mp hv with h' | h'
        · subst h'; exact le_foldl_max_init xs v
        · exact le_foldl_max_mem xs x v h'
      have hratio : (v - xs.foldl min x) / (xs.foldl max x - xs.foldl min x) ≤ 1 :=
        (div_le_one hd).mpr (by linarith)
      have hle : (v - xs.foldl min x) / (xs.foldl max x - xs.foldl min x) * 255 ≤ 255 := by
        calc (v - xs.foldl min x) / (xs.foldl max x - xs.foldl min x) * 255
            ≤ 1 * 255 := mul_le_mul_of_nonneg_right hratio (by norm_num)
          _ = 255 := one_mul 255
      have hfl : ⌊(v - xs.foldl min x) / (xs.foldl max x - xs.foldl min x) * 255⌋ ≤ 255 := by
        calc ⌊(v - xs.foldl min x) / (xs.foldl max x - xs.foldl min x) * 255⌋
            ≤ ⌊(255:ℚ)⌋ := Int.floor_le_floor hle
          _ = 255 := by norm_num
      exact Int.toNat_le.mpr hfl

/-- Witness for C9: the flat map `[2,2,2]` normalizes to all zeros, and the
map `[0,1]` normalizes through the rescale formula with every sample at most
`255`. -/
theorem c9_normalize_witness :
    normalize_depth_map [2, 2, 2] = some (([2, 2, 2] : List ℚ).map fun _ => 0) ∧
    (normalize_depth_map [0, 1] =
      some (([0, 1] : List ℚ).map fun v =>
        (⌊(v - [(1:ℚ)].foldl min 0) / ([(1:ℚ)].foldl max 0 - [(1:ℚ)].foldl min 0) * 255⌋).toNat) ∧
     ∀ u ∈ (([0, 1] : List ℚ).map fun v =>
        (⌊(v - [(1:ℚ)].foldl min 0) / ([(1:ℚ)].foldl max 0 - [(1:ℚ)].foldl min 0) * 255⌋).toNat),
       u ≤ 255) :=
  ⟨(c9_normalize 2 [2, 2]).1 (by decide),
   (c9_normalize 0 [1]).2.2 (by norm_num [List.foldl, min_def, max_def])⟩

/-- A per-frame detection: bounding box, class id, confidence score
(the `Detection` capability of `api.py` as consumed by the tracker). -/
structure Detection where
  xyxy : Box
  class_id : ℕ
  score : ℚ
deriving DecidableEq, Repr

instance : Inhabited Detection := ⟨⟨default, 0, 0⟩⟩

/-- The immutable snapshot `Track3D` (`track.py` lines 9-45). -/
structure Track3D where
  id : ℕ
  x : ℚ
  y : ℚ
  z : ℚ
  bbox : Box
  class_id : ℕ
  class_name : String
  confidence : ℚ
  velocity : Option (ℚ × ℚ × ℚ)
  is_new : Bool
  frames_tracked : ℕ
deriving DecidableEq, Repr

/-- The mutable per-track state `_TrackState` (`tracker3d.py` lines 349-438). -/
structure TrackState where
  track_id : ℕ
  bbox : Box
  class_id : ℕ
  confidence : ℚ
  class_names : List String
  x : ℚ
  y : ℚ
  z : ℚ
  hits : ℕ
  age : ℕ
  frames_tracked : ℕ
  is_new : Bool
  velocity : Option (ℚ × ℚ × ℚ)
  last_pos : ℚ × ℚ × ℚ
deriving DecidableEq, Repr

instance : Inhabited TrackState :=
  ⟨⟨0, default, 0, 0, [], 0, 0, 0, 1, 0, 1, true, none, (0, 0, 0)⟩⟩

/-- `_TrackState.__init__` (`tracker3d.py` lines 352-381): position from the
center depth sample back-projected through the default intrinsics; counters
`hits=1`, `age=0`, `frames_tracked=1`; no velocity. -/
def TrackState.init (track_id : ℕ) (det : Detection) (dm : DepthMap)
    (class_names : List String) : TrackState :=
  let depth := get_bbox_depth_center det.xyxy dm
  let cx := (det.xyxy.x1 + det.xyxy.x2) / 2
  let cy := (det.xyxy.y1 + det.xyxy.y2) / 2
  let pos := pixel_to_3d cx cy depth dm.w dm.h
  { track_id := track_id
    bbox := det.xyxy
    class_id := det.class_id
    confidence := det.score
    class_names := class_names
    x := pos.1
    y := pos.2.1
    z := pos.2.2
    hits := 1
    age := 0
    frames_tracked := 1
    is_new := true
    velocity := none
    last_pos := pos }

/-- `_TrackState.update` (`tracker3d.py` lines 383-415): refresh box, score,
class and position; set the velocity to `(newPos - lastPos) / dt` only when
`dt > 0`; bump `hits` and `frames_tracked`; reset `age`. -/
def TrackState.update (s : TrackState) (det : Detection) (dm : DepthMap) (dt : ℚ) :
    TrackState :=
  let depth := get_bbox_depth_center det.xyxy dm
  let cx := (det.xyxy.x1 + det.xyxy.x2) / 2
  let cy := (det.xyxy.y1 + det.xyxy.y2) / 2
  let pos := pixel_to_3d cx cy depth dm.w dm.h
  let vel := if 0 < dt then
      some ((pos.1 - s.last_pos.1) / dt, (pos.2.1 - s.last_pos.2.1) / dt,
        (pos.2.2 - s.last_pos.2.2) / dt)
    else s.velocity
  { s with
    bbox := det.xyxy
    confidence := det.score
    class_id := det.class_id
    x := pos.1
    y := pos.2.1
    z := pos.2.2
    velocity := vel
    last_pos := pos
    hits := s.hits + 1
    age := 0
    frames_tracked := s.frames_tracked + 1
    is_new := false }

/-- `_TrackState.mark_missing` (`tracker3d.py` lines 417-420). -/
def TrackState.mark_missing (s : TrackState) : TrackState :=
  { s with age := s.age + 1, is_new := false }

/-- `_TrackState.to_track3d` (`tracker3d.py` lines 422-438): emit an
immutable snapshot, synthesising the class name when the class id is out of
range of the configured name list. -/
def TrackState.to_track3d (s : TrackState) : Track3D :=
  let class_name :=
    if s.class_id < s.class_names.length then s.class_names.getD s.class_id ""
    else "class_" ++ toString s.class_id
  { id := s.track_id, x := s.x, y := s.y, z := s.z, bbox := s.bbox,
    class_id := s.class_id, class_name := class_name, confidence := s.confidence,
    velocity := s.velocity, is_new := s.is_new, frames_tracked := s.frames_tracked }

/-- `Tracker3D._get_confirmed_tracks` (`tracker3d.py` lines 340-346): emit a
snapshot of every live track with `hits >= min_hits`. -/
def get_confirmed_tracks (tracks : List TrackState) (min_hits : ℕ) : List Track3D :=
  (tracks.filter fun t => decide (min_hits ≤ t.hits)).map TrackState.to_track3d

/-- C4: a track's velocity is unset until a second observation exists; on a
successful match `_TrackState.update` sets it to `(newPos - lastPos) / dt`
componentwise when `dt > 0` and leaves it unchanged when `dt ≤ 0`. -/
theorem c4_velocity :
    (∀ (id : ℕ) (det : Detection) (dm : DepthMap) (names : List String),
      (TrackState.init id det dm names).velocity = none) ∧
    (∀ (s : TrackState) (det : Detection) (dm : DepthMap) (dt : ℚ), 0 < dt →
      (s.update det dm dt).velocity =
        some (((s.update det dm dt).x - s.last_pos.1) / dt,
              ((s.update det dm dt).y - s.last_pos.2.1) / dt,
              ((s.update det dm dt).z - s.last_pos.2.2) / dt)) ∧
    (∀ (s : TrackState) (det : Detection) (dm : DepthMap) (dt : ℚ), dt ≤ 0 →
      (s.update det dm dt).velocity = s.velocity) := by
  refine ⟨fun id det dm names => rfl, fun s det dm dt h => ?_, fun s det dm dt h => ?_⟩
  · simp only [TrackState.update]
    rw [if_pos h]
  · simp only [TrackState.update]
    rw [if_neg (not_lt.mpr h)]

/-- Sample depth map for the witnesses: 4×4, constant depth 2 m. -/
def dmW : DepthMap := ⟨4, 4, fun _ _ => 2⟩

/-- Sample detection for the witnesses. -/
def detW : Detection := ⟨⟨0, 0, 2, 2⟩, 0, 1⟩

/-- Sample freshly created track for the witnesses. -/
def tsW : TrackState := TrackState.init 0 detW dmW ["person"]

/-- Witness for C4 at a concrete track: no velocity on creation, the
difference quotient at `dt = 1`, no change at `dt = 0`. -/
theorem c4_velocity_witness :
    tsW.velocity = none ∧
    (tsW.update detW dmW 1).velocity =
      some (((tsW.update detW dmW 1).x - tsW.last_pos.1) / 1,
            ((tsW.update detW dmW 1).y - tsW.last_pos.2.1) / 1,
            ((tsW.update detW dmW 1).z - tsW.last_pos.2.2) / 1) ∧
    (tsW.update detW dmW 0).velocity = tsW.velocity :=
  ⟨c4_velocity.1 0 detW dmW ["person"],
   c4_velocity.2.1 tsW detW dmW 1 (by norm_num),
   c4_velocity.2.2 tsW detW dmW 0 (by norm_num)⟩

/-- C10: the emitted snapshot's class name is the list entry at `class_id`
when that index is in range, and the synthesised string `"class_<id>"`
otherwise — the configured name list is never indexed out of range. -/
theorem c10_class_name (s : TrackState) :
    (∀ h : s.class_id < s.class_names.length,
      (s.to_track3d).class_name = s.class_names.get ⟨s.class_id, h⟩) ∧
    (s.class_names.length ≤ s.class_id →
      (s.to_track3d).class_name = "class_" ++ toString s.class_id) := by
  constructor
  · intro h
    simp only [TrackState.to_track3d]
    rw [if_pos h, List.getD_eq_getElem _ _ h, List.get_eq_getElem]
  · intro h
    simp only [TrackState.to_track3d]
    rw [if_neg (not_lt.mpr h)]

/-- Sample track with an in-range class id. -/
def tsA : TrackState := { tsW with class_names := ["person", "car"], class_id := 1 }

/-- Sample track with an out-of-range class id. -/
def tsB : TrackState := { tsW with class_names := ["person"], class_id := 7 }

/-- Witness for C10: in-range id `1` over two names reads the list, and
out-of-range id `7` over one name synthesises `"class_7"`. -/
theorem c10_class_name_witness :
    (tsA.to_track3d).class_name = "car" ∧
    (tsB.to_track3d).class_name = "class_7" := by
  constructor
  · have h := (c10_class_name tsA).1 (by decide)
    simpa using h
  · have h := (c10_class_name tsB).2 (by decide)
    simpa using h

/-- A track that is matched by a detection in every cycle: fold
`_TrackState.update` over the per-cycle inputs (detection, depth map, dt). -/
def runMatched (s0 : TrackState) (inputs : List (Detection × DepthMap × ℚ)) : TrackState :=
  inputs.foldl (fun s i => s.update i.1 i.2.1 i.2.2) s0

lemma runMatched_counters (inputs : List (Detection × DepthMap × ℚ)) :
    ∀ s0 : TrackState,
      (runMatched s0 inputs).hits = s0.hits + inputs.length ∧
      (runMatched s0 inputs).frames_tracked = s0.frames_tracked + inputs.length ∧
      (runMatched s0 inputs).age = if inputs.isEmpty then s0.age else 0 := by
  induction inputs with
  | nil => intro s0; exact ⟨rfl, rfl, rfl⟩
  | cons i is ih =>
    intro s0
    obtain ⟨h1, h2, h3⟩ := ih (s0.update i.1 i.2.1 i.2.2)
    have step : runMatched s0 (i :: is) = runMatched (s0.update i.1 i.2.1 i.2.2) is := rfl
    have hup : (s0.update i.1 i.2.1 i.2.2).hits = s0.hits + 1 := rfl
    have fup : (s0.update i.1 i.2.1 i.2.2).frames_tracked = s0.frames_tracked + 1 := rfl
    have aup : (s0.update i.1 i.2.1 i.2.2).age = 0 := rfl
    refine ⟨?_, ?_, ?_⟩
    · rw [step, h1, hup, List.length_cons]; omega
    · rw [step, h2, fup, List.length_cons]; omega
    · rw [step, h3, aup]
      simp

/-- C1: a track matched in every cycle from its creation has, after its k-th
cycle (creation counting as cycle 1), `hits = k`, `frames_tracked = k` and
`age = 0`, and its snapshot is in the emitted confirmed set exactly when
`min_hits ≤ k`. -/
theorem c1_track_lifecycle (id : ℕ) (det : Detection) (dm : DepthMap) (names : List String)
    (inputs : List (Detection × DepthMap × ℚ)) (min_hits : ℕ) :
    (runMatched (TrackState.init id det dm names) inputs).hits = inputs.length + 1 ∧
    (runMatched (TrackState.init id det dm names) inputs).frames_tracked
      = inputs.length + 1 ∧
    (runMatched (TrackState.init id det dm names) inputs).age = 0 ∧
    ((runMatched (TrackState.init id det dm names) inputs).to_track3d ∈
        get_confirmed_tracks [runMatched (TrackState.init id det dm names) inputs] min_hits ↔
      min_hits ≤ inputs.length + 1) := by
  obtain ⟨h1, h2, h3⟩ := runMatched_counters inputs (TrackState.init id det dm names)
  have hinit_h : (TrackState.init id det dm names).hits = 1 := rfl
  have hinit_f : (TrackState.init id det dm names).frames_tracked = 1 := rfl
  have hinit_a : (TrackState.init id det dm names).age = 0 := rfl
  have hhits : (runMatched (TrackState.init id det dm names) inputs).hits
      = inputs.length + 1 := by rw [h1, hinit_h]; omega
  refine ⟨hhits, by rw [h2, hinit_f]; omega, ?_, ?_⟩
  · rw [h3, hinit_a]; simp
  · constructor
    · intro hmem
      unfold get_confirmed_tracks at hmem
      obtain ⟨t, ht, _⟩ := List.mem_map.mp hmem
      obtain ⟨htm, hcond⟩ := List.mem_filter.mp ht
      have ht_eq : t = runMatched (TrackState.init id det dm names) inputs := by
        simpa using htm
      subst ht_eq
      rw [← hhits]
      exact of_decide_eq_true hcond
    · intro hle
      unfold get_confirmed_tracks
      apply List.mem_map.mpr
      refine ⟨runMatched (TrackState.init id det dm names) inputs, ?_, rfl⟩
      apply List.mem_filter.mpr
      refine ⟨by simp, decide_eq_true ?_⟩
      rw [hhits]
      exact hle

/-- The inner `for j in unmatched_tracks` scan of the best-pair search in
`_match_detections` (`tracker3d.py` lines 292-297): keep the running best,
replace it whenever a strictly larger IOU is found. -/
def innerScan (iouM : ℕ → ℕ → ℚ) (i : ℕ) (acc : ℚ × ℕ × ℕ) (l : List ℕ) : ℚ × ℕ × ℕ :=
  l.foldl (fun a2 j => if a2.1 < iouM i j then (iouM i j, i, j) else a2) acc

/-- The full best-pair search (`tracker3d.py` lines 287-297), starting from
`max_iou = -1` with dummy indices. -/
def findBest (iouM : ℕ → ℕ → ℚ) (uds uts : List ℕ) : ℚ × ℕ × ℕ :=
  uds.foldl (fun acc i => innerScan iouM i acc uts) (-1, 0, 0)

/-- The best-candidate invariant: the indices are drawn from the remaining
lists and the recorded value is their IOU. -/
def BestOk (iouM : ℕ → ℕ → ℚ) (uds uts : List ℕ) (a : ℚ × ℕ × ℕ) : Prop :=
  a.2.1 ∈ uds ∧ a.2.2 ∈ uts ∧ a.1 = iouM a.2.1 a.2.2

lemma innerScan_ok (iouM : ℕ → ℕ → ℚ) (uds uts : List ℕ) (i : ℕ) (hi : i ∈ uds) :
    ∀ l : List ℕ, (∀ j ∈ l, j ∈ uts) →
      ∀ acc, BestOk iouM uds uts acc → BestOk iouM uds uts (innerScan iouM i acc l) := by
  intro l
  induction l with
  | nil => intro _ acc h; exact h
  | cons j js ih =>
    intro hl acc hacc
    have : innerScan iouM i acc (j :: js) =
        innerScan iouM i (if acc.1 < iouM i j then (iouM i j, i, j) else acc) js := rfl
    rw [this]
    apply ih (fun x hx => hl x (List.mem_cons_of_mem j hx))
    by_cases hc : acc.1 < iouM i j
    · rw [if_pos hc]; exact ⟨hi, hl j (List.mem_cons_self j js), rfl⟩
    · rw [if_neg hc]; exact hacc

lemma innerScan_kick (iouM : ℕ → ℕ → ℚ) (hpos : ∀ i j, 0 ≤ iouM i j)
    (uds uts : List ℕ) (i : ℕ) (hi : i ∈ uds) :
    ∀ l : List ℕ, (∀ j ∈ l, j ∈ uts) → l ≠ [] →
      ∀ acc, acc.1 < 0 → BestOk iouM uds uts (innerScan iouM i acc l) := by
  intro l hl hne acc hneg
  match l, hne with
  | j :: js, _ =>
    have : innerScan iouM i acc (j :: js) =
        innerScan iouM i (if acc.1 < iouM i j then (iouM i j, i, j) else acc) js := rfl
    rw [this, if_pos (lt_of_lt_of_le hneg (hpos i j))]
    exact innerScan_ok iouM uds uts i hi js
      (fun x hx => hl x (List.mem_cons_of_mem j hx))
      (iouM i j, i, j) ⟨hi, hl j (List.mem_cons_self j js), rfl⟩

lemma findBest_ok (iouM : ℕ → ℕ → ℚ) (hpos : ∀ i j, 0 ≤ iouM i j)
    (uds uts : List ℕ) (hd : uds ≠ []) (ht : uts ≠ []) :
    BestOk iouM uds uts (findBest iouM uds uts) := by
  have outer : ∀ l : List ℕ, (∀ i ∈ l, i ∈ uds) →
      ∀ acc, (BestOk iouM uds uts acc ∨ (acc.1 < 0 ∧ l ≠ [])) →
      BestOk iouM uds uts (l.foldl (fun acc i => innerScan iouM i acc uts) acc) := by
    intro l
    induction l with
    | nil =>
      intro _ acc h
      rcases h with h | ⟨_, hne⟩
      · exact h
      · exact absurd rfl hne
    | cons i is ih =>
      intro hl acc h
      rw [List.foldl_cons]
      have hi : i ∈ uds := hl i (List.mem_cons_self i is)
      have hnext : BestOk iouM uds uts (innerScan iouM i acc uts) := by
        rcases h with h | ⟨hneg, _⟩
        · exact innerScan_ok iouM uds uts i hi uts (fun _ hx => hx) acc h
        · exact innerScan_kick iouM hpos uds uts i hi uts (fun _ hx => hx) ht acc hneg
      exact ih (fun x hx => hl x (List.mem_cons_of_mem i hx)) _ (Or.inl hnext)
  exact outer uds (fun _ hx => hx) (-1, 0, 0) (Or.inr ⟨by norm_num, hd⟩)

/-- The greedy matching loop of `_match_detections` (`tracker3d.py` lines
281-304): repeatedly find the globally best remaining (detection, track)
pair; stop when it falls below the threshold or either side is exhausted;
otherwise commit `(best_det, track_ids[best_track])` and remove both indices.
The fuel (started at the detection count) only bounds the iteration count:
each committed pair removes one remaining detection index. -/
def greedyLoop (iouM : ℕ → ℕ → ℚ) (thr : ℚ) (tids : List ℕ) :
    ℕ → List ℕ → List ℕ → List (ℕ × ℕ) → List (ℕ × ℕ) × List ℕ × List ℕ
  | 0, uds, uts, acc => (acc.reverse, uds, uts)
  | fuel + 1, uds, uts, acc =>
    if uds = [] ∨ uts = [] then (acc.reverse, uds, uts)
    else
      let best := findBest iouM uds uts
      if best.1 < thr then (acc.reverse, uds, uts)
      else
        greedyLoop iouM thr tids fuel (uds.erase best.2.1) (uts.erase best.2.2)
          ((best.2.1, tids.getD best.2.2 0) :: acc)

/-- A committed pair is well-formed: an in-range detection index paired with
the id of a track whose IOU with it clears the threshold. -/
def GoodPair (iouM : ℕ → ℕ → ℚ) (thr : ℚ) (tids : List ℕ) (nd : ℕ) (p : ℕ × ℕ) : Prop :=
  p.1 < nd ∧ ∃ j, j < tids.length ∧ tids.getD j 0 = p.2 ∧ thr ≤ iouM p.1 j

lemma getD_inj_of_nodup {l : List ℕ} (h : l.Nodup) {i j : ℕ} (hi : i < l.length)
    (hj : j < l.length) (he : l.getD i 0 = l.getD j 0) : i = j := by
  rw [List.getD_eq_getElem _ _ hi, List.getD_eq_getElem _ _ hj] at he
  exact (List.Nodup.getElem_inj_iff h).mp he

/-- The committed-pairs contract of the greedy matcher: every pair is
well-formed and no detection index or track id repeats. -/
def MatchedOk (iouM : ℕ → ℕ → ℚ) (thr : ℚ) (tids : List ℕ) (nd : ℕ)
    (m : List (ℕ × ℕ)) : Prop :=
  (∀ p ∈ m, GoodPair iouM thr tids nd p) ∧
  (m.map Prod.fst).Nodup ∧ (m.map Prod.snd).Nodup

lemma matchedOk_reverse (iouM : ℕ → ℕ → ℚ) (thr : ℚ) (tids : List ℕ) (nd : ℕ)
    (acc : List (ℕ × ℕ)) (hgood : ∀ p ∈ acc, GoodPair iouM thr tids nd p)
    (hfst : (acc.map Prod.fst).Nodup) (hsnd : (acc.map Prod.snd).Nodup) :
    MatchedOk iouM thr tids nd acc.reverse := by
  refine ⟨fun p hp => hgood p (List.mem_reverse.mp hp), ?_, ?_⟩
  · rw [List.map_reverse]
    simpa using hfst
  · rw [List.map_reverse]
    simpa using hsnd

lemma greedyLoop_spec (iouM : ℕ → ℕ → ℚ) (hpos : ∀ i j, 0 ≤ iouM i j) (thr : ℚ)
    (tids : List ℕ) (htids : tids.Nodup) (nd : ℕ) :
    ∀ (fuel : ℕ) (uds uts : List ℕ) (acc : List (ℕ × ℕ)),
      uds.Nodup → uts.Nodup →
      (∀ i ∈ uds, i < nd) → (∀ j ∈ uts, j < tids.length) →
      (∀ p ∈ acc, GoodPair iouM thr tids nd p) →
      (acc.map Prod.fst).Nodup →
      (∀ p ∈ acc, p.1 ∉ uds) →
      (acc.map Prod.snd).Nodup →
      (∀ t ∈ acc.map Prod.snd, ∃ j, j < tids.length ∧ j ∉ uts ∧ tids.getD j 0 = t) →
      MatchedOk iouM thr tids nd (greedyLoop iouM thr tids fuel uds uts acc).1 := by
  intro fuel
  induction fuel with
  | zero =>
    intro uds uts acc _ _ _ _ hgood hfst _ hsnd _
    exact matchedOk_reverse iouM thr tids nd acc hgood hfst hsnd
  | succ fuel ih =>
    intro uds uts acc hudsN hutsN hudsB hutsB hgood hfst hfst_not hsnd hsnd_src
    simp only [greedyLoop]
    split
    · exact matchedOk_reverse iouM thr tids nd acc hgood hfst hsnd
    · rename_i hne
      push_neg at hne
      obtain ⟨hd, ht⟩ := hne
      obtain ⟨hbd, hbt, hbeq⟩ := findBest_ok iouM hpos uds uts hd ht
      split
      · exact matchedOk_reverse iouM thr tids nd acc hgood hfst hsnd
      · rename_i hthr
        push_neg at hthr
        apply ih
        · exact List.Nodup.erase _ hudsN
        · exact List.Nodup.erase _ hutsN
        · exact fun i hi => hudsB i (List.mem_of_mem_erase hi)
        · exact fun j hj => hutsB j (List.mem_of_mem_erase hj)
        · intro p hp
          rcases List.mem_cons.mp hp with h | h
          · subst h
            refine ⟨hudsB _ hbd, (findBest iouM uds uts).2.2, hutsB _ hbt, rfl, ?_⟩
            rw [← hbeq]
            exact hthr
          · exact hgood p h
        · rw [List.map_cons]
          apply List.nodup_cons.mpr
          refine ⟨?_, hfst⟩
          intro hmem
          obtain ⟨p, hp, hpe⟩ := List.mem_map.mp hmem
          exact (hfst_not p hp) (hpe ▸ hbd)
        · intro p hp
          rcases List.mem_cons.mp hp with h | h
          · subst h
            exact List.Nodup.not_mem_erase hudsN
          · exact fun hmem => (hfst_not p h) (List.mem_of_mem_erase hmem)
        · rw [List.map_cons]
          apply List.nodup_cons.mpr
          refine ⟨?_, hsnd⟩
          intro hmem
          obtain ⟨j, hj1, hj2, hj3⟩ := hsnd_src _ hmem
          have : j = (findBest iouM uds uts).2.2 :=
            getD_inj_of_nodup htids hj1 (hutsB _ hbt) hj3
          rw [this] at hj2
          exact hj2 hbt
        · intro t htm
          rw [List.map_cons] at htm
          rcases List.mem_cons.mp htm with h | h
          · subst h
            exact ⟨(findBest iouM uds uts).2.2, hutsB _ hbt,
              List.Nodup.not_mem_erase hutsN, rfl⟩
          · obtain ⟨j, hj1, hj2, hj3⟩ := hsnd_src t h
            exact ⟨j, hj1, fun hmem => hj2 (List.mem_of_mem_erase hmem), hj3⟩

/-- Embedding of `Tracker3D._match_detections` (`tracker3d.py` lines
256-308): the two early returns for an empty side, then the greedy loop over
the IOU matrix; unmatched track indices are translated to ids at the end. -/
def match_detections (tracks : List (ℕ × TrackState)) (thr : ℚ)
    (dets : List Detection) : List (ℕ × ℕ) × List ℕ × List ℕ :=
  if dets.length = 0 then ([], [], tracks.map Prod.fst)
  else if tracks.length = 0 then ([], List.range dets.length, [])
  else
    let track_ids := tracks.map Prod.fst
    let iouM := fun i j =>
      computeIou (dets.getD i default).xyxy ((tracks.getD j default).2.bbox)
    let r := greedyLoop iouM thr track_ids dets.length
      (List.range dets.length) (List.range tracks.length) []
    (r.1, r.2.1, r.2.2.map fun j => track_ids.getD j 0)

lemma map_fst_getD (tracks : List (ℕ × TrackState)) (j : ℕ) (hj : j < tracks.length) :
    (tracks.map Prod.fst).getD j 0 = (tracks.getD j default).1 := by
  rw [List.getD_eq_getElem _ _ (by simpa using hj), List.getD_eq_getElem _ _ hj,
    List.getElem_map]

/-- C2: every pair committed by the greedy association has IOU at least the
threshold (against the box of the track whose id it records), detection
indices are in range, and no detection index or track id appears in two
committed pairs. -/
theorem c2_greedy_matching (dets : List Detection) (tracks : List (ℕ × TrackState))
    (thr : ℚ) (hN : (tracks.map Prod.fst).Nodup) :
    (∀ p ∈ (match_detections tracks thr dets).1,
      p.1 < dets.length ∧
      ∃ j, j < tracks.length ∧ (tracks.getD j default).1 = p.2 ∧
        thr ≤ computeIou (dets.getD p.1 default).xyxy ((tracks.getD j default).2.bbox)) ∧
    ((match_detections tracks thr dets).1.map Prod.fst).Nodup ∧
    ((match_detections tracks thr dets).1.map Prod.snd).Nodup := by
  unfold match_detections
  split
  · simp
  · split
    · simp
    · have hspec := greedyLoop_spec
        (fun i j => computeIou (dets.getD i default).xyxy ((tracks.getD j default).2.bbox))
        (fun i j => computeIou_nonneg _ _) thr (tracks.map Prod.fst) hN dets.length
        dets.length (List.range dets.length) (List.range tracks.length) []
        (List.nodup_range dets.length) (List.nodup_range tracks.length)
        (fun i hi => List.mem_range.mp hi)
        (fun j hj => by simpa using List.mem_range.mp hj)
        (by intro p hp; exact absurd hp (List.not_mem_nil p))
        List.nodup_nil
        (by intro p hp; exact absurd hp (List.not_mem_nil p))
        List.nodup_nil
        (by intro t ht; exact absurd ht (List.not_mem_nil t))
      obtain ⟨hgood, hfst, hsnd⟩ := hspec
      refine ⟨?_, hfst, hsnd⟩
      intro p hp
      obtain ⟨h1, j, hj1, hj2, hj3⟩ := hgood p hp
      rw [List.length_map] at hj1
      refine ⟨h1, j, hj1, ?_, hj3⟩
      rw [← map_fst_getD tracks j hj1]
      exact hj2

/-- Witness for C2 at a concrete instance: one detection matching one live
track (id 5) with IOU 1 against threshold 0.3. -/
theorem c2_greedy_matching_witness :
    (∀ p ∈ (match_detections [(5, tsW)] (3/10) [detW]).1,
      p.1 < [detW].length ∧
      ∃ j, j < [(5, tsW)].length ∧ ([(5, tsW)].getD j default).1 = p.2 ∧
        3/10 ≤ computeIou ([detW].getD p.1 default).xyxy
          (([(5, tsW)].getD j default).2.bbox)) ∧
    ((match_detections [(5, tsW)] (3/10) [detW]).1.map Prod.fst).Nodup ∧
    ((match_detections [(5, tsW)] (3/10) [detW]).1.map Prod.snd).Nodup :=
  c2_greedy_matching [detW] [(5, tsW)] (3/10) (by simp)

/-- The mutable tracker state: the insertion-ordered `dict` of live tracks
plus the id counter (`tracker3d.py` lines 96-98). -/
structure TrackerState where
  tracks : List (ℕ × TrackState)
  next_id : ℕ

/-- The tracker configuration fields one update cycle reads
(`tracker3d.py` lines 82-89). -/
structure TrackerCfg where
  max_objects : ℕ
  max_age : ℕ
  min_hits : ℕ
  iou_threshold : ℚ
  class_names : List String

/-- In-place value update of the insertion-ordered track map at one key
(Python `self._tracks[track_id] = ...` on an existing key keeps its slot). -/
def updateAssocWith (f : TrackState → TrackState) (mid : ℕ) :
    List (ℕ × TrackState) → List (ℕ × TrackState) :=
  List.map fun p => if p.1 = mid then (p.1, f p.2) else p

/-- The matched-track update pass (`tracker3d.py` lines 224-227). -/
def applyMatched (dets : List Detection) (dm : DepthMap) (dt : ℚ)
    (matched : List (ℕ × ℕ)) (tr : List (ℕ × TrackState)) : List (ℕ × TrackState) :=
  matched.foldl
    (fun tr p =>
      updateAssocWith (fun s => s.update (dets.getD p.1 default) dm dt) p.2 tr)
    tr

/-- The unmatched-track aging pass (`tracker3d.py` lines 243-245). -/
def applyMissing (uids : List ℕ) (tr : List (ℕ × TrackState)) : List (ℕ × TrackState) :=
  uids.foldl (fun tr mid => updateAssocWith TrackState.mark_missing mid tr) tr

/-- Track creation for unmatched detections (`tracker3d.py` lines 229-241):
in encounter order, stop once the live-track count reaches `max_objects`;
each created track takes the next id and is appended to the map. -/
def createTracks (cfg : TrackerCfg) (dm : DepthMap) (dets : List Detection) :
    List (ℕ × TrackState) × ℕ → List ℕ → List (ℕ × TrackState) × ℕ
  | acc, [] => acc
  | (tr, nid), i :: rest =>
    if cfg.max_objects ≤ tr.length then (tr, nid)
    else
      createTracks cfg dm dets
        (tr ++ [(nid, TrackState.init nid (dets.getD i default) dm cfg.class_names)],
          nid + 1) rest

/-- One full update cycle `Tracker3D._update_tracks` (`tracker3d.py` lines
213-254): associate, update matched tracks, create tracks for unmatched
detections, age unmatched tracks, then evict every track with
`age > max_age`. -/
def update_tracks (cfg : TrackerCfg) (st : TrackerState) (dets : List Detection)
    (dm : DepthMap) (dt : ℚ) : TrackerState :=
  let r := match_detections st.tracks cfg.iou_threshold dets
  let tracks1 := applyMatched dets dm dt r.1 st.tracks
  let c := createTracks cfg dm dets (tracks1, st.next_id) r.2.1
  let tracks3 := applyMissing r.2.2 c.1
  { tracks := tracks3.filter fun p => decide (p.2.age ≤ cfg.max_age),
    next_id := c.2 }

/-- The ids of the live tracks, in map order. -/
def idsOf (l : List (ℕ × TrackState)) : List ℕ := l.map Prod.fst

/-- The track ids committed as matched in one cycle. -/
def matchedIds (cfg : TrackerCfg) (st : TrackerState) (dets : List Detection) : List ℕ :=
  (match_detections st.tracks cfg.iou_threshold dets).1.map Prod.snd

/-- One cycle of `Tracker3D.process` restricted to the tracking state. -/
def stepCycle (cfg : TrackerCfg) (st : TrackerState)
    (inp : List Detection × DepthMap × ℚ) : TrackerState :=
  update_tracks cfg st inp.1 inp.2.1 inp.2.2

/-- A run of consecutive update cycles. -/
def runCycles (cfg : TrackerCfg) (st : TrackerState)
    (inputs : List (List Detection × DepthMap × ℚ)) : TrackerState :=
  inputs.foldl (stepCycle cfg) st

/-- The given id is never among the matched track ids, in any of the cycles
of the run. -/
def UnmatchedThroughout (cfg : TrackerCfg) (id : ℕ) :
    TrackerState → List (List Detection × DepthMap × ℚ) → Prop
  | _, [] => True
  | st, inp :: rest =>
    id ∉ matchedIds cfg st inp.1 ∧
      UnmatchedThroughout cfg id (stepCycle cfg st inp) rest

lemma idsOf_updateAssocWith (f : TrackState → TrackState) (mid : ℕ)
    (l : List (ℕ × TrackState)) : idsOf (updateAssocWith f mid l) = idsOf l := by
  unfold idsOf updateAssocWith
  rw [List.map_map]
  apply List.map_congr_left
  intro p _
  by_cases h : p.1 = mid <;> simp [h]

lemma idsOf_applyMatched (dets : List Detection) (dm : DepthMap) (dt : ℚ)
    (matched : List (ℕ × ℕ)) :
    ∀ tr, idsOf (applyMatched dets dm dt matched tr) = idsOf tr := by
  induction matched with
  | nil => intro tr; rfl
  | cons p ps ih =>
    intro tr
    have step : applyMatched dets dm dt (p :: ps) tr =
        applyMatched dets dm dt ps
          (updateAssocWith (fun s => s.update (dets.getD p.1 default) dm dt) p.2 tr) := rfl
    rw [step, ih, idsOf_updateAssocWith]

lemma idsOf_applyMissing (uids : List ℕ) :
    ∀ tr, idsOf (applyMissing uids tr) = idsOf tr := by
  induction uids with
  | nil => intro tr; rfl
  | cons u us ih =>
    intro tr
    have step : applyMissing (u :: us) tr =
        applyMissing us (updateAssocWith TrackState.mark_missing u tr) := rfl
    rw [step, ih, idsOf_updateAssocWith]

lemma mem_updateAssocWith_ne {l : List (ℕ × TrackState)} {id : ℕ} {s : TrackState}
    (f : TrackState → TrackState) {mid : ℕ} (hne : id ≠ mid) (hmem : (id, s) ∈ l) :
    (id, s) ∈ updateAssocWith f mid l := by
  unfold updateAssocWith
  have heq : (fun p : ℕ × TrackState => if p.1 = mid then (p.1, f p.2) else p) (id, s)
      = (id, s) := by simp [hne]
  exact heq ▸ List.mem_map_of_mem _ hmem

lemma mem_updateAssocWith_self {l : List (ℕ × TrackState)} {id : ℕ} {s : TrackState}
    (f : TrackState → TrackState) (hmem : (id, s) ∈ l) :
    (id, f s) ∈ updateAssocWith f id l := by
  unfold updateAssocWith
  have heq : (fun p : ℕ × TrackState => if p.1 = id then (p.1, f p.2) else p) (id, s)
      = (id, f s) := by simp
  exact heq ▸ List.mem_map_of_mem _ hmem

lemma mem_unique_of_nodup_keys : ∀ {l : List (ℕ × TrackState)}, (idsOf l).Nodup →
    ∀ {a : ℕ} {b c : TrackState}, (a, b) ∈ l → (a, c) ∈ l → b = c := by
  intro l
  induction l with
  | nil => intro _ a b c hb _; exact absurd hb (List.not_mem_nil _)
  | cons p ps ih =>
    intro hN a b c hb hc
    rw [show idsOf (p :: ps) = p.1 :: idsOf ps from rfl, List.nodup_cons] at hN
    obtain ⟨hp1, hps⟩ := hN
    rcases List.mem_cons.mp hb with hb | hb <;> rcases List.mem_cons.mp hc with hc | hc
    · exact congrArg Prod.snd (hb.trans hc.symm)
    · exfalso
      apply hp1
      have ha : (a, c).1 ∈ idsOf ps := List.mem_map_of_mem Prod.fst hc
      have hpa : p.1 = a := by rw [← hb]
      rw [hpa]
      exact ha
    · exfalso
      apply hp1
      have ha : (a, b).1 ∈ idsOf ps := List.mem_map_of_mem Prod.fst hb
      have hpa : p.1 = a := by rw [← hc]
      rw [hpa]
      exact ha
    · exact ih hps hb hc

lemma createTracks_spec (cfg : TrackerCfg) (dm : DepthMap) (dets : List Detection) :
    ∀ (uds : List ℕ) (tr : List (ℕ × TrackState)) (nid : ℕ),
      ∃ ext : List (ℕ × TrackState),
        createTracks cfg dm dets (tr, nid) uds = (tr ++ ext, nid + ext.length) ∧
        (∀ p ∈ ext, nid ≤ p.1 ∧ p.1 < nid + ext.length) ∧
        (idsOf ext).Nodup := by
  intro uds
  induction uds with
  | nil =>
    intro tr nid
    exact ⟨[], by simp [createTracks], by simp, by simp [idsOf]⟩
  | cons i rest ih =>
    intro tr nid
    by_cases hcap : cfg.max_objects ≤ tr.length
    · refine ⟨[], ?_, by simp, by simp [idsOf]⟩
      simp [createTracks, hcap]
    · obtain ⟨ext, he, hb, hn⟩ := ih
        (tr ++ [(nid, TrackState.init nid (dets.getD i default) dm cfg.class_names)])
        (nid + 1)
      refine ⟨(nid, TrackState.init nid (dets.getD i default) dm cfg.class_names) :: ext,
        ?_, ?_, ?_⟩
      · have hstep : createTracks cfg dm dets (tr, nid) (i :: rest) =
            createTracks cfg dm dets
              (tr ++ [(nid, TrackState.init nid (dets.getD i default) dm cfg.class_names)],
                nid + 1) rest := by
          rw [createTracks, if_neg hcap]
        rw [hstep, he, Prod.mk.injEq]
        constructor
        · simp
        · simp only [List.length_cons]
          omega
      · intro p hp
        rcases List.mem_cons.mp hp with h | h
        · subst h
          simp only [List.length_cons]
          omega
        · obtain ⟨h1, h2⟩ := hb p h
          simp only [List.length_cons]
          omega
      · rw [show idsOf ((nid, TrackState.init nid (dets.getD i default) dm cfg.class_names)
            :: ext) = nid :: idsOf ext from rfl, List.nodup_cons]
        refine ⟨?_, hn⟩
        intro hm
        obtain ⟨p, hp, hpe⟩ := List.mem_map.mp hm
        obtain ⟨h1, _⟩ := hb p hp
        omega

lemma mem_applyMatched_ne {dets : List Detection} {dm : DepthMap} {dt : ℚ}
    {id : ℕ} {s : TrackState} (matched : List (ℕ × ℕ))
    (hne : ∀ p ∈ matched, p.2 ≠ id) :
    ∀ tr, (id, s) ∈ tr → (id, s) ∈ applyMatched dets dm dt matched tr := by
  induction matched with
  | nil => intro tr h; exact h
  | cons p ps ih =>
    intro tr h
    have hstep : applyMatched dets dm dt (p :: ps) tr =
        applyMatched dets dm dt ps
          (updateAssocWith (fun s => s.update (dets.getD p.1 default) dm dt) p.2 tr) := rfl
    rw [hstep]
    apply ih (fun q hq => hne q (List.mem_cons_of_mem p hq))
    exact mem_updateAssocWith_ne _
      (fun he => hne p (List.mem_cons_self p ps) he.symm) h

lemma mem_applyMissing_of_not_mem {id : ℕ} {s : TrackState} (uids : List ℕ)
    (hni : id ∉ uids) :
    ∀ tr, (id, s) ∈ tr → (id, s) ∈ applyMissing uids tr := by
  induction uids with
  | nil => intro tr h; exact h
  | cons u us ih =>
    intro tr h
    have hstep : applyMissing (u :: us) tr =
        applyMissing us (updateAssocWith TrackState.mark_missing u tr) := rfl
    rw [hstep]
    apply ih (fun hm => hni (List.mem_cons_of_mem u hm))
    exact mem_updateAssocWith_ne _ (fun he => hni (he ▸ List.mem_cons_self u us)) h

lemma mem_applyMissing_once {id : ℕ} {s : TrackState} (uids : List ℕ)
    (hN : uids.Nodup) (hid : id ∈ uids) :
    ∀ tr, (id, s) ∈ tr → (id, s.mark_missing) ∈ applyMissing uids tr := by
  induction uids with
  | nil => exact absurd hid (List.not_mem_nil id)
  | cons u us ih =>
    intro tr h
    have hstep : applyMissing (u :: us) tr =
        applyMissing us (updateAssocWith TrackState.mark_missing u tr) := rfl
    rw [hstep]
    obtain ⟨hu, husN⟩ := List.nodup_cons.mp hN
    rcases List.mem_cons.mp hid with hcase | hcase
    · subst hcase
      exact mem_applyMissing_of_not_mem us hu _ (mem_updateAssocWith_self _ h)
    · have hne : id ≠ u := fun he => hu (he ▸ hcase)
      exact ih husN hcase _ (mem_updateAssocWith_ne _ hne h)

lemma greedyLoop_acc_mono (iouM : ℕ → ℕ → ℚ) (thr : ℚ) (tids : List ℕ) :
    ∀ (fuel : ℕ) (uds uts : List ℕ) (acc : List (ℕ × ℕ)) (p : ℕ × ℕ), p ∈ acc →
      p ∈ (greedyLoop iouM thr tids fuel uds uts acc).1 := by
  intro fuel
  induction fuel with
  | zero => intro uds uts acc p hp; exact List.mem_reverse.mpr hp
  | succ fuel ih =>
    intro uds uts acc p hp
    simp only [greedyLoop]
    split
    · exact List.mem_reverse.mpr hp
    · split
      · exact List.mem_reverse.mpr hp
      · exact ih _ _ _ p (List.mem_cons_of_mem _ hp)

lemma greedyLoop_coverage (iouM : ℕ → ℕ → ℚ) (thr : ℚ) (tids : List ℕ) :
    ∀ (fuel : ℕ) (uds uts : List ℕ) (acc : List (ℕ × ℕ)) (j : ℕ), j ∈ uts →
      j ∈ (greedyLoop iouM thr tids fuel uds uts acc).2.2 ∨
      tids.getD j 0 ∈ (greedyLoop iouM thr tids fuel uds uts acc).1.map Prod.snd := by
  intro fuel
  induction fuel with
  | zero => intro uds uts acc j hj; left; exact hj
  | succ fuel ih =>
    intro uds uts acc j hj
    simp only [greedyLoop]
    split
    · left; exact hj
    · split
      · left; exact hj
      · by_cases hbj : j = (findBest iouM uds uts).2.2
        · right
          subst hbj
          have hmem := greedyLoop_acc_mono iouM thr tids fuel
            (uds.erase (findBest iouM uds uts).2.1)
            (uts.erase (findBest iouM uds uts).2.2)
            (((findBest iouM uds uts).2.1, tids.getD (findBest iouM uds uts).2.2 0) :: acc)
            ((findBest iouM uds uts).2.1, tids.getD (findBest iouM uds uts).2.2 0)
            (List.mem_cons_self _ acc)
          exact List.mem_map_of_mem Prod.snd hmem
        · exact ih _ _ _ j ((List.mem_erase_of_ne hbj).mpr hj)

lemma greedyLoop_uts (iouM : ℕ → ℕ → ℚ) (thr : ℚ) (tids : List ℕ) :
    ∀ (fuel : ℕ) (uds uts : List ℕ) (acc : List (ℕ × ℕ)), uts.Nodup →
      (greedyLoop iouM thr tids fuel uds uts acc).2.2.Nodup ∧
      ∀ j ∈ (greedyLoop iouM thr tids fuel uds uts acc).2.2, j ∈ uts := by
  intro fuel
  induction fuel with
  | zero => intro uds uts acc hN; exact ⟨hN, fun j hj => hj⟩
  | succ fuel ih =>
    intro uds uts acc hN
    simp only [greedyLoop]
    split
    · exact ⟨hN, fun j hj => hj⟩
    · split
      · exact ⟨hN, fun j hj => hj⟩
      · obtain ⟨h1, h2⟩ := ih
          (uds.erase (findBest iouM uds uts).2.1)
          (uts.erase (findBest iouM uds uts).2.2)
          (((findBest iouM uds uts).2.1, tids.getD (findBest iouM uds uts).2.2 0) :: acc)
          (List.Nodup.erase _ hN)
        exact ⟨h1, fun j hj => List.mem_of_mem_erase (h2 j hj)⟩

lemma unmatched_mem_of_not_matched (tracks : List (ℕ × TrackState)) (thr : ℚ)
    (dets : List Detection) (id : ℕ)
    (hmem : id ∈ idsOf tracks)
    (hno : id ∉ (match_detections tracks thr dets).1.map Prod.snd) :
    id ∈ (match_detections tracks thr dets).2.2 := by
  by_cases h1 : dets.length = 0
  · simp only [match_detections, if_pos h1]
    exact hmem
  · by_cases h2 : tracks.length = 0
    · rw [List.length_eq_zero] at h2
      subst h2
      exact absurd hmem (by simp [idsOf])
    · simp only [match_detections, if_neg h1, if_neg h2] at hno ⊢
      obtain ⟨j, hjlt, hji⟩ := List.mem_iff_getElem.mp hmem
      have hjlt' : j < tracks.length := by simpa [idsOf] using hjlt
      have hjr : j ∈ List.range tracks.length := List.mem_range.mpr hjlt'
      have hgd : (tracks.map Prod.fst).getD j 0 = id := by
        rw [List.getD_eq_getElem _ _ (by simpa [idsOf] using hjlt)]
        exact hji
      rcases greedyLoop_coverage
          (fun i j => computeIou (dets.getD i default).xyxy ((tracks.getD j default).2.bbox))
          thr (tracks.map Prod.fst) dets.length (List.range dets.length)
          (List.range tracks.length) [] j hjr with hin | hmm
      · exact List.mem_map.mpr ⟨j, hin, hgd⟩
      · exact absurd (hgd ▸ hmm) hno

lemma match_unmatched_nodup (tracks : List (ℕ × TrackState)) (thr : ℚ)
    (dets : List Detection) (hN : (idsOf tracks).Nodup) :
    (match_detections tracks thr dets).2.2.Nodup := by
  by_cases h1 : dets.length = 0
  · simp only [match_detections, if_pos h1]
    exact hN
  · by_cases h2 : tracks.length = 0
    · simp only [match_detections, if_neg h1, if_pos h2]
      exact List.nodup_nil
    · simp only [match_detections, if_neg h1, if_neg h2]
      obtain ⟨hnod, hsub⟩ := greedyLoop_uts
        (fun i j => computeIou (dets.getD i default).xyxy ((tracks.getD j default).2.bbox))
        thr (tracks.map Prod.fst) dets.length (List.range dets.length)
        (List.range tracks.length) [] (List.nodup_range tracks.length)
      apply List.Nodup.map_on ?_ hnod
      intro x hx y hy he
      have hxl : x < tracks.length := List.mem_range.mp (hsub x hx)
      have hyl : y < tracks.length := List.mem_range.mp (hsub y hy)
      exact getD_inj_of_nodup hN (by simpa [idsOf] using hxl) (by simpa [idsOf] using hyl) he

lemma mem_idsOf_filter {q : ℕ × TrackState → Bool} {l : List (ℕ × TrackState)} {id : ℕ}
    (h : id ∈ idsOf (l.filter q)) : id ∈ idsOf l := by
  obtain ⟨p, hp, hpe⟩ := List.mem_map.mp h
  exact hpe ▸ List.mem_map_of_mem Prod.fst (List.mem_filter.mp hp).1

lemma idsOf_filter_nodup {q : ℕ × TrackState → Bool} {l : List (ℕ × TrackState)}
    (h : (idsOf l).Nodup) : (idsOf (l.filter q)).Nodup :=
  ((List.filter_sublist l).map Prod.fst).nodup h

lemma idsOf_append (l1 l2 : List (ℕ × TrackState)) :
    idsOf (l1 ++ l2) = idsOf l1 ++ idsOf l2 :=
  List.map_append Prod.fst l1 l2

lemma nodup_ids_append_ext {l ext : List (ℕ × TrackState)} {n : ℕ}
    (hN : (idsOf l).Nodup) (hB : ∀ i ∈ idsOf l, i < n)
    (hbnd : ∀ p ∈ ext, n ≤ p.1) (hextN : (idsOf ext).Nodup) :
    (idsOf (l ++ ext)).Nodup := by
  rw [idsOf_append]
  apply List.nodup_append.mpr
  refine ⟨hN, hextN, ?_⟩
  intro a ha1 ha2
  obtain ⟨p, hp, hpe⟩ := List.mem_map.mp ha2
  have h1 := hbnd p hp
  have h2 := hB a ha1
  rw [hpe] at h1
  omega

lemma update_tracks_unfold (cfg : TrackerCfg) (st : TrackerState) (dets : List Detection)
    (dm : DepthMap) (dt : ℚ) :
    update_tracks cfg st dets dm dt =
      { tracks := (applyMissing (match_detections st.tracks cfg.iou_threshold dets).2.2
          (createTracks cfg dm dets
            (applyMatched dets dm dt (match_detections st.tracks cfg.iou_threshold dets).1
              st.tracks, st.next_id)
            (match_detections st.tracks cfg.iou_threshold dets).2.1).1).filter
          (fun p => decide (p.2.age ≤ cfg.max_age)),
        next_id := (createTracks cfg dm dets
            (applyMatched dets dm dt (match_detections st.tracks cfg.iou_threshold dets).1
              st.tracks, st.next_id)
            (match_detections st.tracks cfg.iou_threshold dets).2.1).2 } := rfl

lemma update_tracks_ids (cfg : TrackerCfg) (st : TrackerState) (dets : List Detection)
    (dm : DepthMap) (dt : ℚ) :
    ∃ ext : List (ℕ × TrackState),
      (update_tracks cfg st dets dm dt).tracks =
        (applyMissing (match_detections st.tracks cfg.iou_threshold dets).2.2
          (applyMatched dets dm dt (match_detections st.tracks cfg.iou_threshold dets).1
            st.tracks ++ ext)).filter (fun p => decide (p.2.age ≤ cfg.max_age)) ∧
      (update_tracks cfg st dets dm dt).next_id = st.next_id + ext.length ∧
      (∀ p ∈ ext, st.next_id ≤ p.1 ∧ p.1 < st.next_id + ext.length) ∧
      (idsOf ext).Nodup := by
  obtain ⟨ext, hc, hbnd, hextN⟩ := createTracks_spec cfg dm dets
    (match_detections st.tracks cfg.iou_threshold dets).2.1
    (applyMatched dets dm dt (match_detections st.tracks cfg.iou_threshold dets).1 st.tracks)
    st.next_id
  refine ⟨ext, ?_, ?_, hbnd, hextN⟩
  · rw [update_tracks_unfold, hc]
  · rw [update_tracks_unfold, hc]

lemma update_tracks_invariants (cfg : TrackerCfg) (st : TrackerState)
    (dets : List Detection) (dm : DepthMap) (dt : ℚ)
    (hN : (idsOf st.tracks).Nodup) (hB : ∀ i ∈ idsOf st.tracks, i < st.next_id) :
    (idsOf (update_tracks cfg st dets dm dt).tracks).Nodup ∧
    (∀ i ∈ idsOf (update_tracks cfg st dets dm dt).tracks,
      i < (update_tracks cfg st dets dm dt).next_id) ∧
    st.next_id ≤ (update_tracks cfg st dets dm dt).next_id ∧
    (∀ i ∈ idsOf (update_tracks cfg st dets dm dt).tracks,
      i ∈ idsOf st.tracks ∨ st.next_id ≤ i) ∧
    (∀ p ∈ (update_tracks cfg st dets dm dt).tracks, p.2.age ≤ cfg.max_age) := by
  obtain ⟨ext, htr, hnid, hbnd, hextN⟩ := update_tracks_ids cfg st dets dm dt
  have hids3 : idsOf (applyMissing (match_detections st.tracks cfg.iou_threshold dets).2.2
      (applyMatched dets dm dt (match_detections st.tracks cfg.iou_threshold dets).1
        st.tracks ++ ext)) = idsOf st.tracks ++ idsOf ext := by
    rw [idsOf_applyMissing, idsOf_append, idsOf_applyMatched]
  refine ⟨?_, ?_, ?_, ?_, ?_⟩
  · rw [htr]
    apply idsOf_filter_nodup
    rw [idsOf_applyMissing]
    apply nodup_ids_append_ext (n := st.next_id) ?_ ?_ (fun p hp => (hbnd p hp).1) hextN
    · rw [idsOf_applyMatched]; exact hN
    · rw [idsOf_applyMatched]; exact hB
  · intro i hi
    rw [htr] at hi
    have h3 := mem_idsOf_filter hi
    rw [hids3] at h3
    rw [hnid]
    rcases List.mem_append.mp h3 with h | h
    · have := hB i h; omega
    · obtain ⟨p, hp, hpe⟩ := List.mem_map.mp h
      have h2 := (hbnd p hp).2
      rw [hpe] at h2
      exact h2
  · rw [hnid]; omega
  · intro i hi
    rw [htr] at hi
    have h3 := mem_idsOf_filter hi
    rw [hids3] at h3
    rcases List.mem_append.mp h3 with h | h
    · left; exact h
    · right
      obtain ⟨p, hp, hpe⟩ := List.mem_map.mp h
      have h2 := (hbnd p hp).1
      rw [hpe] at h2
      exact h2
  · intro p hp
    rw [htr] at hp
    exact of_decide_eq_true (List.mem_filter.mp hp).2

lemma update_tracks_absent (cfg : TrackerCfg) (st : TrackerState) (dets : List Detection)
    (dm : DepthMap) (dt : ℚ) (id : ℕ)
    (hid : id < st.next_id) (habs : id ∉ idsOf st.tracks) :
    id ∉ idsOf (update_tracks cfg st dets dm dt).tracks := by
  obtain ⟨ext, htr, hnid, hbnd, hextN⟩ := update_tracks_ids cfg st dets dm dt
  rw [htr]
  intro hmem
  have h3 := mem_idsOf_filter hmem
  rw [idsOf_applyMissing, idsOf_append, idsOf_applyMatched] at h3
  rcases List.mem_append.mp h3 with h | h
  · exact habs h
  · obtain ⟨p, hp, hpe⟩ := List.mem_map.mp h
    have h1 := (hbnd p hp).1
    rw [hpe] at h1
    omega

lemma update_tracks_unmatched_present (cfg : TrackerCfg) (st : TrackerState)
    (dets : List Detection) (dm : DepthMap) (dt : ℚ) (id : ℕ) (s : TrackState)
    (hN : (idsOf st.tracks).Nodup) (hB : ∀ i ∈ idsOf st.tracks, i < st.next_id)
    (hmem : (id, s) ∈ st.tracks)
    (hno : id ∉ (match_detections st.tracks cfg.iou_threshold dets).1.map Prod.snd) :
    id ∉ idsOf (update_tracks cfg st dets dm dt).tracks ∨
      (id, s.mark_missing) ∈ (update_tracks cfg st dets dm dt).tracks := by
  obtain ⟨ext, htr, hnid, hbnd, hextN⟩ := update_tracks_ids cfg st dets dm dt
  have h1 : (id, s) ∈ applyMatched dets dm dt
      (match_detections st.tracks cfg.iou_threshold dets).1 st.tracks :=
    mem_applyMatched_ne _
      (fun p hp he => hno (by rw [← he]; exact List.mem_map_of_mem Prod.snd hp)) _ hmem
  have h2 : (id, s) ∈ applyMatched dets dm dt
      (match_detections st.tracks cfg.iou_threshold dets).1 st.tracks ++ ext :=
    List.mem_append_left _ h1
  have hidm : id ∈ idsOf st.tracks := List.mem_map_of_mem Prod.fst hmem
  have huin : id ∈ (match_detections st.tracks cfg.iou_threshold dets).2.2 :=
    unmatched_mem_of_not_matched _ _ _ _ hidm hno
  have hunod : (match_detections st.tracks cfg.iou_threshold dets).2.2.Nodup :=
    match_unmatched_nodup _ _ _ hN
  have h3 : (id, s.mark_missing) ∈ applyMissing
      (match_detections st.tracks cfg.iou_threshold dets).2.2
      (applyMatched dets dm dt (match_detections st.tracks cfg.iou_threshold dets).1
        st.tracks ++ ext) :=
    mem_applyMissing_once _ hunod huin _ h2
  by_cases hage : s.mark_missing.age ≤ cfg.max_age
  · right
    rw [htr]
    exact List.mem_filter.mpr ⟨h3, decide_eq_true hage⟩
  · left
    rw [htr]
    intro hmem4
    have hN3 : (idsOf (applyMissing
        (match_detections st.tracks cfg.iou_threshold dets).2.2
        (applyMatched dets dm dt (match_detections st.tracks cfg.iou_threshold dets).1
          st.tracks ++ ext))).Nodup := by
      rw [idsOf_applyMissing]
      apply nodup_ids_append_ext (n := st.next_id) ?_ ?_ (fun p hp => (hbnd p hp).1) hextN
      · rw [idsOf_applyMatched]; exact hN
      · rw [idsOf_applyMatched]; exact hB
    obtain ⟨p, hp4, hpe⟩ := List.mem_map.mp hmem4
    have hp3 := (List.mem_filter.mp hp4).1
    have hcond := (List.mem_filter.mp hp4).2
    have hpair : (id, p.2) ∈ applyMissing
        (match_detections st.tracks cfg.iou_threshold dets).2.2
        (applyMatched dets dm dt (match_detections st.tracks cfg.iou_threshold dets).1
          st.tracks ++ ext) := by
      have hpp : (id, p.2) = p := by rw [← hpe]
      rw [hpp]
      exact hp3
    have hps : p.2 = s.mark_missing := mem_unique_of_nodup_keys hN3 hpair h3
    rw [hps] at hcond
    exact hage (of_decide_eq_true hcond)

lemma absent_or_aged (cfg : TrackerCfg) :
    ∀ (inputs : List (List Detection × DepthMap × ℚ)) (st : TrackerState) (id k : ℕ),
      (idsOf st.tracks).Nodup →
      (∀ i ∈ idsOf st.tracks, i < st.next_id) →
      id < st.next_id →
      UnmatchedThroughout cfg id st inputs →
      (id ∉ idsOf st.tracks ∨ ∃ s, (id, s) ∈ st.tracks ∧ k ≤ s.age) →
      (id ∉ idsOf (runCycles cfg st inputs).tracks ∨
        ∃ s, (id, s) ∈ (runCycles cfg st inputs).tracks ∧ k + inputs.length ≤ s.age) := by
  intro inputs
  induction inputs with
  | nil =>
    intro st id k _ _ _ _ h
    rcases h with h | ⟨s, hs, hk⟩
    · left; exact h
    · right; exact ⟨s, hs, by simpa using hk⟩
  | cons inp rest ih =>
    intro st id k hN hB hid hub h
    obtain ⟨hu1, hu2⟩ := hub
    obtain ⟨hN', hB', hmono, _, _⟩ :=
      update_tracks_invariants cfg st inp.1 inp.2.1 inp.2.2 hN hB
    have hrun : runCycles cfg st (inp :: rest) =
        runCycles cfg (stepCycle cfg st inp) rest := rfl
    rw [hrun, show k + (inp :: rest).length = (k + 1) + rest.length from by
      simp only [List.length_cons]; omega]
    apply ih (stepCycle cfg st inp) id (k + 1) hN' hB' (lt_of_lt_of_le hid hmono) hu2
    rcases h with habs | ⟨s, hmem, hage⟩
    · left
      exact update_tracks_absent cfg st inp.1 inp.2.1 inp.2.2 id hid habs
    · rcases update_tracks_unmatched_present cfg st inp.1 inp.2.1 inp.2.2 id s hN hB
        hmem hu1 with habs | hpres
      · left; exact habs
      · right
        refine ⟨s.mark_missing, hpres, ?_⟩
        have hmm : s.mark_missing.age = s.age + 1 := rfl
        rw [hmm]
        omega

lemma runCycles_ages (cfg : TrackerCfg) :
    ∀ (inputs : List (List Detection × DepthMap × ℚ)) (st : TrackerState),
      inputs ≠ [] →
      (idsOf st.tracks).Nodup →
      (∀ i ∈ idsOf st.tracks, i < st.next_id) →
      ∀ p ∈ (runCycles cfg st inputs).tracks, p.2.age ≤ cfg.max_age := by
  intro inputs
  induction inputs with
  | nil => intro st h; exact absurd rfl h
  | cons inp rest ih =>
    intro st _ hN hB
    obtain ⟨hN', hB', _, _, hages⟩ :=
      update_tracks_invariants cfg st inp.1 inp.2.1 inp.2.2 hN hB
    by_cases hr : rest = []
    · subst hr
      intro p hp
      exact hages p hp
    · exact ih (stepCycle cfg st inp) hr hN' hB'

/-- C3: within one tracker instance, one update cycle preserves id
uniqueness and the bound `id < next_id`, never decreases the id counter,
gives every live track either its previous id or a fresh id at least the old
counter (so ids are never reused), and removes every track with
`age > max_age`; consequently a track whose id goes unmatched for
`max_age + 1` consecutive cycles is absent from the live set afterwards. -/
theorem c3_track_ids (cfg : TrackerCfg) (st : TrackerState)
    (hN : (idsOf st.tracks).Nodup) (hB : ∀ i ∈ idsOf st.tracks, i < st.next_id) :
    (∀ (dets : List Detection) (dm : DepthMap) (dt : ℚ),
      (idsOf (update_tracks cfg st dets dm dt).tracks).Nodup ∧
      (∀ i ∈ idsOf (update_tracks cfg st dets dm dt).tracks,
        i < (update_tracks cfg st dets dm dt).next_id) ∧
      st.next_id ≤ (update_tracks cfg st dets dm dt).next_id ∧
      (∀ i ∈ idsOf (update_tracks cfg st dets dm dt).tracks,
        i ∈ idsOf st.tracks ∨ st.next_id ≤ i) ∧
      (∀ p ∈ (update_tracks cfg st dets dm dt).tracks, p.2.age ≤ cfg.max_age)) ∧
    (∀ (id : ℕ) (inputs : List (List Detection × DepthMap × ℚ)),
      id < st.next_id → inputs.length = cfg.max_age + 1 →
      UnmatchedThroughout cfg id st inputs →
      id ∉ idsOf (runCycles cfg st inputs).tracks) := by
  constructor
  · intro dets dm dt
    exact update_tracks_invariants cfg st dets dm dt hN hB
  · intro id inputs hid hlen hum
    have hstart : id ∉ idsOf st.tracks ∨ ∃ s, (id, s) ∈ st.tracks ∧ 0 ≤ s.age := by
      by_cases hmem : id ∈ idsOf st.tracks
      · right
        obtain ⟨p, hp, hpe⟩ := List.mem_map.mp hmem
        refine ⟨p.2, ?_, Nat.zero_le _⟩
        have hpp : (id, p.2) = p := by rw [← hpe]
        rw [hpp]
        exact hp
      · left; exact hmem
    rcases absent_or_aged cfg inputs st id 0 hN hB hid hum hstart with habs | ⟨s, hmem, hage⟩
    · exact habs
    · exfalso
      have hne : inputs ≠ [] := by
        intro he
        rw [he] at hlen
        simp at hlen
      have hbound : s.age ≤ cfg.max_age :=
        runCycles_ages cfg inputs st hne hN hB (id, s) hmem
      rw [hlen] at hage
      omega

/-- Tracker configuration for the C3 witness: `max_age = 0`. -/
def cfgC : TrackerCfg := ⟨50, 0, 3, 3/10, ["person"]⟩

/-- Tracker state for the C3 witness: one live track with id 0. -/
def stC : TrackerState := ⟨[(0, tsW)], 1⟩

/-- Witness for C3: with `max_age = 0`, one cycle with no detections evicts
the only track, and the per-cycle invariants hold for that cycle. -/
theorem c3_track_ids_witness :
    ((idsOf (update_tracks cfgC stC [] dmW 1).tracks).Nodup ∧
      (∀ i ∈ idsOf (update_tracks cfgC stC [] dmW 1).tracks,
        i < (update_tracks cfgC stC [] dmW 1).next_id) ∧
      stC.next_id ≤ (update_tracks cfgC stC [] dmW 1).next_id ∧
      (∀ i ∈ idsOf (update_tracks cfgC stC [] dmW 1).tracks,
        i ∈ idsOf stC.tracks ∨ stC.next_id ≤ i) ∧
      (∀ p ∈ (update_tracks cfgC stC [] dmW 1).tracks, p.2.age ≤ cfgC.max_age)) ∧
    0 ∉ idsOf (runCycles cfgC stC [([], dmW, 1)]).tracks :=
  ⟨(c3_track_ids cfgC stC (by decide) (by decide)).1 [] dmW 1,
   (c3_track_ids cfgC stC (by decide) (by decide)).2 0 [([], dmW, 1)]
     (by decide) (by decide) ⟨by decide, trivial⟩⟩
